import Mathlib

set_option maxHeartbeats 1000000

/-!
Verification model of the `fuzzy-phrase` glue layer (`src/glue/mod.rs`).

The glue layer binds three lower-level automata (a token dictionary, a fuzzy
dictionary, and a phrase automaton) into phrase queries.  The automata
themselves live in sibling crates that are not part of the sources under
review, so they are modelled here from the specification (each such
definition carries a doc comment starting with "Modelled from the spec:").
Everything else is a direct translation of the Rust glue code.

Naming note: the Rust enum constructor `QueryWord::Prefix` and all
identifiers containing that word are rendered with `pfx` here
(`QueryWord.pfx`, `fuzzy_match_pfx` for `fuzzy_match_prefix`,
`psGetPfxRange` for `PrefixSet::get_prefix_range`, and so on).
-/

/-- Strict byte-wise ordering on character lists.  Rust compares `String`s by
UTF-8 bytes; UTF-8 byte order coincides with code-point order, so comparing
the code points is faithful. -/
def charListLt : List Char → List Char → Bool
  | [], [] => false
  | [], _ :: _ => true
  | _ :: _, [] => false
  | a :: as, b :: bs => decide (a < b) || (a == b && charListLt as bs)

/-- Rust `String` ordering (byte-wise lexicographic). -/
def strLt (s t : String) : Bool := charListLt s.data t.data

/-- Character-list version of `starts_with`. -/
def charListIsPfxOf : List Char → List Char → Bool
  | [], _ => true
  | _ :: _, [] => false
  | a :: as, b :: bs => a == b && charListIsPfxOf as bs

/-- Rust `str::starts_with` on whole strings: `strStartsWith s p` is true iff
`p` is a (byte) prefix of `s`. -/
def strStartsWith (s p : String) : Bool := charListIsPfxOf p.data s.data

/-- Token variant, mirroring `phrase::query::QueryWord`: `full` is
`QueryWord::Full { id, edit_distance }` and `pfx` is
`QueryWord::Prefix { id_range: (lo, hi) }`. -/
inductive QueryWord where
  | full (id : Nat) (edit_distance : Nat)
  | pfx (lo : Nat) (hi : Nat)
deriving DecidableEq, Repr

/-- `FuzzyMatchResult { phrase, edit_distance }` from the glue layer. -/
structure FuzzyMatchResult where
  phrase : List String
  edit_distance : Nat
deriving DecidableEq, Repr

/-- `FuzzyWindowResult` from the glue layer; the Rust field `ends_in_prefix`
is called `ends_in_pfx` here. -/
structure FuzzyWindowResult where
  phrase : List String
  edit_distance : Nat
  start_position : Nat
  ends_in_pfx : Bool
deriving DecidableEq, Repr

/-- The reader value `FuzzyPhraseSet`.  `word_list` is the in-memory
`id → string` array; `phrases` models the phrase automaton as the list of
stored token-ID sequences; `fuzzy_eligible` models the script gate
`can_fuzzy_match`, and `fuzzy_lookup` models `FuzzyMap::lookup` returning
`(id, edit_distance)` pairs.  The latter two are black boxes per the spec. -/
structure FuzzyPhraseSet where
  word_list : List String
  phrases : List (List Nat)
  fuzzy_eligible : String → Bool
  fuzzy_lookup : String → Nat → List (Nat × Nat)

/-- Modelled from the spec: `PrefixSet::get(s)` returns the ID of `s`, where
`word_list[id] = s` (spec data-model invariant 2). -/
def psGet (S : FuzzyPhraseSet) (w : String) : Option Nat :=
  S.word_list.findIdx? (fun s => s == w)

/-- Modelled from the spec: `PrefixSet::get_prefix_range(p)` returns the
contiguous interval `[lo, hi]` of IDs of words starting with `p`
(spec data-model invariant 3). -/
def psGetPfxRange (S : FuzzyPhraseSet) (w : String) : Option (Nat × Nat) :=
  let idxs := (List.range S.word_list.length).filter
    (fun i => strStartsWith (S.word_list.getD i "") w)
  match idxs.head?, idxs.getLast? with
  | some lo, some hi => some (lo, hi)
  | _, _ => none

/-- `FuzzyPhraseSet::get_nonterminal_word_possibilities`: fuzzy lookup for
eligible words (None on no hits), exact dictionary lookup otherwise. -/
def get_nonterminal_word_possibilities (S : FuzzyPhraseSet) (word : String)
    (edit_distance : Nat) : Option (List QueryWord) :=
  if S.fuzzy_eligible word then
    let fuzzy_results := S.fuzzy_lookup word edit_distance
    if fuzzy_results.length = 0 then none
    else some (fuzzy_results.map (fun r => QueryWord.full r.1 r.2))
  else
    match psGet S word with
    | some word_id => some [QueryWord.full word_id 0]
    | none => none

/-- `FuzzyPhraseSet::get_terminal_word_possibilities`: word-prefix range plus
fuzzy hits, where exact (distance-0) hits are skipped if a range was found. -/
def get_terminal_word_possibilities (S : FuzzyPhraseSet) (word : String)
    (edit_distance : Nat) : Option (List QueryWord) :=
  let found := psGetPfxRange S word
  let base : List QueryWord :=
    match found with
    | some r => [QueryWord.pfx r.1 r.2]
    | none => []
  let last_variants :=
    if S.fuzzy_eligible word then
      base ++ ((S.fuzzy_lookup word edit_distance).filter
        (fun r => !(found.isSome && r.2 == 0))).map (fun r => QueryWord.full r.1 r.2)
    else base
  if last_variants.length > 0 then some last_variants else none

def isFullVar : QueryWord → Bool
  | .full _ _ => true
  | .pfx _ _ => false

/-- The token-ID sequence of a choice, defined when every slot is `full`. -/
def allFullIds : List QueryWord → Option (List Nat)
  | [] => some []
  | QueryWord.full id _ :: rest => (allFullIds rest).map (fun ids => id :: ids)
  | QueryWord.pfx _ _ :: _ => none

/-- Whole-phrase edit distance of a choice (`pfx` contributes 0). -/
def choiceDist (c : List QueryWord) : Nat :=
  (c.map (fun qw => match qw with
    | QueryWord.full _ e => e
    | QueryWord.pfx _ _ => 0)).sum

/-- All ways to pick one variant per slot, in slot-major order. -/
def cartesianChoices : List (List QueryWord) → List (List QueryWord)
  | [] => [[]]
  | slot :: rest => slot.flatMap (fun v => (cartesianChoices rest).map (fun c => v :: c))

/-- Modelled from the spec: `PhraseSet::match_combinations` (§4.3): choices
whose slots are all `full`, whose ID sequence is a stored phrase, and whose
accumulated distance is within the cap; an empty slot list yields no results;
duplicates are removed by exact sequence equality. -/
def match_combinations (phrases : List (List Nat)) (V : List (List QueryWord))
    (D : Nat) : List (List QueryWord) :=
  if V.isEmpty then []
  else ((cartesianChoices V).filter (fun c =>
    match allFullIds c with
    | some ids => phrases.contains ids && decide (choiceDist c ≤ D)
    | none => false)).dedup

def varMatchesAt (p : List Nat) (i : Nat) : QueryWord → Bool
  | .full id _ => p.getD i 0 == id
  | .pfx lo hi => decide (lo ≤ p.getD i 0) && decide (p.getD i 0 ≤ hi)

/-- A choice is accepted as a phrase-set prefix when some stored phrase
extends it slot-wise (a terminal `pfx` matches by interval membership). -/
def pfxAccepts (phrases : List (List Nat)) (c : List QueryWord) : Bool :=
  phrases.any (fun p => decide (c.length ≤ p.length) &&
    (List.range c.length).all (fun i => varMatchesAt p i (c.getD i (QueryWord.full 0 0))))

def lastOnlyPfx (c : List QueryWord) : Bool := c.dropLast.all isFullVar

/-- Modelled from the spec: `PhraseSet::match_combinations_as_prefixes`
(§4.3): the final state may be any prefix-reachable state and only the last
slot may hold a `pfx` variant. -/
def match_combinations_as_pfx (phrases : List (List Nat))
    (V : List (List QueryWord)) (D : Nat) : List (List QueryWord) :=
  if V.isEmpty then []
  else ((cartesianChoices V).filter (fun c =>
    lastOnlyPfx c && pfxAccepts phrases c && decide (choiceDist c ≤ D))).dedup

/-- Modelled from the spec: `PhraseSet::match_combinations_as_windows`
(§4.3): for every level `k ≥ 1` emit the accepting states of length `k`;
full acceptances carry flag `false`, and when the walk was asked to end in a
prefix the final level emits the prefix-reachable states with flag `true`. -/
def match_combinations_as_windows (phrases : List (List Nat))
    (V : List (List QueryWord)) (D : Nat) (wf : Bool) :
    List (List QueryWord × Bool) :=
  (List.range V.length).flatMap (fun j =>
    if j + 1 < V.length || !wf then
      (match_combinations phrases (V.take (j + 1)) D).map (fun c => (c, false))
    else
      (match_combinations_as_pfx phrases V D).map (fun c => (c, true)))

/-- Option-valued traversal of a list (the `?`-propagating loops of the
source, written as plain recursion). -/
def optionTraverse {α β : Type} (f : α → Option β) : List α → Option (List β)
  | [] => some []
  | a :: as =>
    match f a with
    | none => none
    | some b =>
      match optionTraverse f as with
      | none => none
      | some bs => some (b :: bs)

/-- Option-valued left fold (`?`-propagating accumulation). -/
def optionFoldl {α β : Type} (f : β → α → Option β) : β → List α → Option β
  | b, [] => some b
  | b, a :: as =>
    match f b a with
    | none => none
    | some b' => optionFoldl f b' as

/-- Exact resolution of every token via `prefix_set.get`. -/
def resolveExact (S : FuzzyPhraseSet) (phrase : List String) : Option (List Nat) :=
  optionTraverse (psGet S) phrase

/-- `FuzzyPhraseSet::contains`: every token must resolve exactly, then the ID
sequence must be in the phrase set; a missing token returns `false`. -/
def FuzzyPhraseSet.containsPhrase (S : FuzzyPhraseSet) (phrase : List String) : Bool :=
  match resolveExact S phrase with
  | some ids => S.phrases.contains ids
  | none => false

/-- Per-slot nonterminal resolution of a whole phrase (None as soon as any
slot fails, mirroring the lazy early-bail in `fuzzy_match`). -/
def resolveNonterminalAll (S : FuzzyPhraseSet) (phrase : List String) (ed : Nat) :
    Option (List (List QueryWord)) :=
  optionTraverse (fun w => get_nonterminal_word_possibilities S w ed) phrase

/-- Result reconstruction in `fuzzy_match`; the two `panic!("prefixes not
allowed")` arms of the source are modelled by `none`. -/
def reconstructFull (S : FuzzyPhraseSet) (c : List QueryWord) : Option FuzzyMatchResult :=
  match optionTraverse (fun qw => match qw with
          | QueryWord.full id _ => some (S.word_list.getD id "")
          | QueryWord.pfx _ _ => none) c,
        optionTraverse (fun qw => match qw with
          | QueryWord.full _ e => some e
          | QueryWord.pfx _ _ => none) c with
  | some strs, some eds => some { phrase := strs, edit_distance := eds.sum }
  | _, _ => none

/-- `FuzzyPhraseSet::fuzzy_match`.  The value `none` models an aborted
reconstruction (the panic); `some []` is the early empty return. -/
def fuzzy_match (S : FuzzyPhraseSet) (phrase : List String)
    (max_word_dist max_phrase_dist : Nat) : Option (List FuzzyMatchResult) :=
  let edit_distance := min max_word_dist 1
  match resolveNonterminalAll S phrase edit_distance with
  | none => some []
  | some V => optionTraverse (reconstructFull S) (match_combinations S.phrases V max_phrase_dist)

/-- Result reconstruction used by `fuzzy_match_prefix` and
`fuzzy_match_multi`: a `full` slot is rendered from the word list, a `pfx`
slot from the caller's input token at the same position. -/
def reconstructWithInput (S : FuzzyPhraseSet) (input : List String)
    (c : List QueryWord) : FuzzyMatchResult :=
  { phrase := c.enum.map (fun p => match p.2 with
      | QueryWord.full id _ => S.word_list.getD id ""
      | QueryWord.pfx _ _ => input.getD p.1 ""),
    edit_distance := choiceDist c }

/-- `FuzzyPhraseSet::fuzzy_match_prefix`. -/
def fuzzy_match_pfx (S : FuzzyPhraseSet) (phrase : List String)
    (max_word_dist max_phrase_dist : Nat) : List FuzzyMatchResult :=
  if phrase.isEmpty then []
  else
    let edit_distance := min max_word_dist 1
    match resolveNonterminalAll S phrase.dropLast edit_distance with
    | none => []
    | some Vinit =>
      match get_terminal_word_possibilities S (phrase.getLast?.getD "") edit_distance with
      | none => []
      | some lastV =>
        (match_combinations_as_pfx S.phrases (Vinit ++ [lastV]) max_phrase_dist).map
          (reconstructWithInput S phrase)

/-- One contiguous run of resolved slots in `fuzzy_match_windows`. -/
structure Subquery where
  start_position : Nat
  ends_in_pfx : Bool
  word_possibilities : List (List QueryWord)

/-- The per-slot resolution sequence of `fuzzy_match_windows` (terminal
resolution on the last slot only when the query ends in a prefix). -/
def windowsResolve (S : FuzzyPhraseSet) (phrase : List String) (ed : Nat)
    (eip : Bool) : List (Option (List QueryWord)) :=
  if eip then
    phrase.dropLast.map (fun w => get_nonterminal_word_possibilities S w ed) ++
      [get_terminal_word_possibilities S (phrase.getLast?.getD "") ed]
  else
    phrase.map (fun w => get_nonterminal_word_possibilities S w ed)

/-- One step of the subquery segmentation loop of `fuzzy_match_windows`.
State: accumulated subqueries, the open subquery, and the slot index. -/
def segStep (phraseLen : Nat) (eip : Bool)
    (st : List Subquery × Subquery × Nat) (m : Option (List QueryWord)) :
    List Subquery × Subquery × Nat :=
  match m with
  | some p =>
    (st.1,
     { start_position := if st.2.1.word_possibilities.isEmpty then st.2.2
                         else st.2.1.start_position,
       ends_in_pfx := st.2.1.ends_in_pfx,
       word_possibilities := st.2.1.word_possibilities ++ [p] },
     st.2.2 + 1)
  | none =>
    if st.2.1.word_possibilities.isEmpty then (st.1, st.2.1, st.2.2 + 1)
    else
      (st.1 ++ [{ st.2.1 with
          ends_in_pfx := (decide (st.2.2 = phraseLen) && eip) || st.2.1.ends_in_pfx }],
       { start_position := 0, ends_in_pfx := false, word_possibilities := [] },
       st.2.2 + 1)

/-- `FuzzyPhraseSet::fuzzy_match_windows`.  The reconstruction of a `pfx`
slot uses `phrase[chunk.start_position + p.1]` where `p.1` is the index
inside the emitted phrase, exactly as in the source, whose closure parameter
`i` shadows the window-start loop variable `i`. -/
def fuzzy_match_windows (S : FuzzyPhraseSet) (phrase : List String)
    (max_word_dist max_phrase_dist : Nat) (eip : Bool) : List FuzzyWindowResult :=
  if phrase.isEmpty then []
  else
    let ed := min max_word_dist 1
    let seq := windowsResolve S phrase ed eip
    let final := (seq ++ [none]).foldl (segStep phrase.length eip)
      ([], { start_position := 0, ends_in_pfx := false, word_possibilities := [] }, 0)
    final.1.flatMap (fun chunk =>
      (List.range chunk.word_possibilities.length).flatMap (fun i =>
        (match_combinations_as_windows S.phrases (chunk.word_possibilities.drop i)
            max_phrase_dist chunk.ends_in_pfx).map (fun e =>
          { phrase := e.1.enum.map (fun p => match p.2 with
              | QueryWord.full id _ => S.word_list.getD id ""
              | QueryWord.pfx _ _ => phrase.getD (chunk.start_position + p.1) ""),
            edit_distance := choiceDist e.1,
            start_position := chunk.start_position + i,
            ends_in_pfx := e.2 })))

/-- The variant list cached for a `(token, is-terminal)` key in
`fuzzy_match_multi`'s word table (an empty resolution is cached as `[]`). -/
def multiWordVal (S : FuzzyPhraseSet) (ed : Nat) (key : String × Bool) :
    List QueryWord :=
  (if key.2 then get_terminal_word_possibilities S key.1 ed
   else get_nonterminal_word_possibilities S key.1 ed).getD []

/-- Insert-if-vacant into the `(token, is-terminal) → variants` table of
`fuzzy_match_multi`. -/
def allWordsInsert (S : FuzzyPhraseSet) (ed : Nat)
    (m : List ((String × Bool) × List QueryWord)) (key : String × Bool) :
    List ((String × Bool) × List QueryWord) :=
  match m.lookup key with
  | some _ => m
  | none => m ++ [(key, multiWordVal S ed key)]

/-- Word-table contribution of one input query in `fuzzy_match_multi`.  For a
query ending in a prefix the source computes `phrase.len() - 1` and slices
with it; on an empty phrase that underflows and aborts, modelled by `none`. -/
def addPhraseWords (S : FuzzyPhraseSet) (ed : Nat)
    (m : List ((String × Bool) × List QueryWord)) (q : List String × Bool) :
    Option (List ((String × Bool) × List QueryWord)) :=
  if q.2 then
    if q.1.isEmpty then none
    else
      let m1 := q.1.dropLast.foldl (fun acc w => allWordsInsert S ed acc (w, false)) m
      some (allWordsInsert S ed m1 (q.1.getLast?.getD "", true))
  else
    some (q.1.foldl (fun acc w => allWordsInsert S ed acc (w, false)) m)

def buildAllWords (S : FuzzyPhraseSet) (ed : Nat) (Q : List (List String × Bool)) :
    Option (List ((String × Bool) × List QueryWord)) :=
  optionFoldl (addPhraseWords S ed) [] Q

/-- An input phrase paired with its `ends_in_prefix` flag and original
position, as in `indexed_phrases`. -/
abbrev IndexedPhrase := List String × Bool × Nat

def boolLtb : Bool → Bool → Bool
  | false, true => true
  | _, _ => false

/-- Lexicographic order on token-string lists (Rust slice ordering). -/
def strListLtb : List String → List String → Bool
  | [], [] => false
  | [], _ :: _ => true
  | _ :: _, [] => false
  | a :: as, b :: bs => strLt a b || (a == b && strListLtb as bs)

/-- Rust tuple ordering on `(phrase, ends_in_prefix, index)`. -/
def ipLe (x y : IndexedPhrase) : Bool :=
  strListLtb x.1 y.1 ||
    (x.1 == y.1 && (boolLtb x.2.1 y.2.1 ||
      (x.2.1 == y.2.1 && decide (x.2.2 ≤ y.2.2))))

def insSorted (le : α → α → Bool) (x : α) : List α → List α
  | [] => [x]
  | y :: ys => if le x y then x :: y :: ys else y :: insSorted le x ys

/-- Insertion sort; on the totally ordered, duplicate-free triples it sorts
the same way as `Vec::sort`. -/
def insSort (le : α → α → Bool) (l : List α) : List α :=
  l.foldr (insSorted le) []

/-- The group-termination test of the prefix-cluster loop: the current item
ends in a prefix, or the next item is not longer, or the current item is not
a positional prefix of the next. -/
def groupDone (x y : IndexedPhrase) : Bool :=
  x.2.1 || decide (y.1.length ≤ x.1.length) || !(y.1.take x.1.length == x.1)

/-- The prefix-cluster grouping of `fuzzy_match_multi`: maximal runs of
consecutive items each a strict positional prefix of the next, none but the
last ending in a prefix.  The last item of each group is the longest. -/
def groupPhrases : List IndexedPhrase → List (List IndexedPhrase)
  | [] => []
  | [x] => [[x]]
  | x :: y :: rest =>
    if groupDone x y then [x] :: groupPhrases (y :: rest)
    else
      match groupPhrases (y :: rest) with
      | g :: gs => (x :: g) :: gs
      | [] => [[x]]

/-- The `(length, ends_in_prefix) → original index` demultiplexing table of a
cluster. -/
def lengthMapOf (group : List IndexedPhrase) : List ((Nat × Bool) × Nat) :=
  group.map (fun g => ((g.1.length, g.2.1), g.2.2))

/-- `HashMap::collect` keeps the last entry for a duplicated key, so lookup
scans from the end. -/
def lmLookup (lm : List ((Nat × Bool) × Nat)) (key : Nat × Bool) : Option Nat :=
  lm.reverse.lookup key

/-- The per-slot variant lists assembled for a cluster's longest phrase; a
missing table entry is the source's `ok_or("Can't find corrected word")`. -/
def clusterV (m : List ((String × Bool) × List QueryWord)) (longest : IndexedPhrase) :
    Option (List (List QueryWord)) :=
  match optionTraverse (fun w => m.lookup (w, false)) longest.1.dropLast,
        m.lookup (longest.1.getLast?.getD "", longest.2.1) with
  | some init, some last => some (init ++ [last])
  | _, _ => none

/-- The `(original index, result)` pairs one cluster contributes in
`fuzzy_match_multi`: walk the longest member and demultiplex each emission by
`(length, prefixness)`. -/
def clusterContribs (S : FuzzyPhraseSet) (Q : List (List String × Bool))
    (max_phrase_dist : Nat) (m : List ((String × Bool) × List QueryWord))
    (group : List IndexedPhrase) : Option (List (Nat × FuzzyMatchResult)) :=
  match group.getLast? with
  | none => some []
  | some longest =>
    if longest.1.length = 0 then some []
    else
      match clusterV m longest with
      | none => none
      | some V =>
        let ems := match_combinations_as_windows S.phrases V max_phrase_dist longest.2.1
        let lm := lengthMapOf group
        some (ems.foldl (fun acc e =>
          match lmLookup lm (e.1.length, e.2) with
          | some idx => acc ++ [(idx, reconstructWithInput S (Q.getD idx ([], false)).1 e.1)]
          | none => acc) [])

def modifyIdx : List α → Nat → (α → α) → List α
  | [], _, _ => []
  | a :: as, 0, f => f a :: as
  | a :: as, n + 1, f => a :: modifyIdx as n f

/-- `FuzzyPhraseSet::fuzzy_match_multi`; `none` models an abort (empty
phrase flagged as ending in a prefix, or a missing word-table entry). -/
def fuzzy_match_multi (S : FuzzyPhraseSet) (Q : List (List String × Bool))
    (max_word_dist max_phrase_dist : Nat) : Option (List (List FuzzyMatchResult)) :=
  if Q.isEmpty then some []
  else
    let ed := min max_word_dist 1
    match buildAllWords S ed Q with
    | none => none
    | some m =>
      let indexed := Q.enum.map (fun p => (p.2.1, p.2.2, p.1))
      let groups := groupPhrases (insSort ipLe indexed)
      match optionTraverse (clusterContribs S Q max_phrase_dist m) groups with
      | none => none
      | some contribs =>
        some (contribs.flatten.foldl (fun res e => modifyIdx res e.1 (fun l => l ++ [e.2]))
          (List.replicate Q.length []))

/-- `impl PartialEq<FuzzyMatchResult> for FuzzyWindowResult`: equality looks
at the `phrase` fields only. -/
def windowEqMatchResult (a : FuzzyWindowResult) (b : FuzzyMatchResult) : Bool :=
  a.phrase == b.phrase

/-- Builder state: phrases as temporary-ID sequences plus the
word → temporary-ID table (`BTreeMap`, modelled as an assoc list kept in
ascending key order). -/
structure FuzzyPhraseSetBuilder where
  phrases : List (List Nat)
  words_to_tmpids : List (String × Nat)
deriving DecidableEq, Repr

/-- Ordered insertion of a new binding into the `BTreeMap` model; an existing
key keeps its old value (`or_insert`). -/
def btreeInsert (w : String) (t : Nat) : List (String × Nat) → List (String × Nat)
  | [] => [(w, t)]
  | e :: rest =>
    if strLt w e.1 then (w, t) :: e :: rest
    else if w == e.1 then e :: rest
    else e :: btreeInsert w t rest

/-- One word of `FuzzyPhraseSetBuilder::insert`: reuse the temporary ID if
the word was seen, else assign the next one (`words_to_tmpids.len()`). -/
def builderAddWord (m : List (String × Nat)) (w : String) : List (String × Nat) × Nat :=
  match m.lookup w with
  | some t => (m, t)
  | none => (btreeInsert w m.length m, m.length)

/-- `FuzzyPhraseSetBuilder::insert`. -/
def builderInsert (B : FuzzyPhraseSetBuilder) (phrase : List String) :
    FuzzyPhraseSetBuilder :=
  let st := phrase.foldl (fun (st : List (String × Nat) × List Nat) w =>
    let r := builderAddWord st.1 w
    (r.1, st.2 ++ [r.2])) (B.words_to_tmpids, [])
  { phrases := B.phrases ++ [st.2], words_to_tmpids := st.1 }

/-- The word table after processing one phrase word by word (the first
component of `builderInsert`'s fold). -/
def insertWords (m : List (String × Nat)) : List String → List (String × Nat)
  | [] => m
  | w :: ws => insertWords (builderAddWord m w).1 ws

/-- The temporary-ID sequence recorded for one phrase (the second component
of `builderInsert`'s fold). -/
def insertIds (m : List (String × Nat)) : List String → List Nat
  | [] => []
  | w :: ws => (builderAddWord m w).2 :: insertIds (builderAddWord m w).1 ws

/-- A builder that has received the given phrases in order. -/
def builderOfList (ps : List (List String)) : FuzzyPhraseSetBuilder :=
  ps.foldl builderInsert { phrases := [], words_to_tmpids := [] }

/-- Lexicographic strict order on ID sequences (Rust `Vec<u32>` ordering). -/
def natListLtb : List Nat → List Nat → Bool
  | [], [] => false
  | [], _ :: _ => true
  | _ :: _, [] => false
  | a :: as, b :: bs => decide (a < b) || (a == b && natListLtb as bs)

def natListLeb (a b : List Nat) : Bool := natListLtb a b || a == b

/-- The `tmpid → stable id` renumbering vector built in `finish`: position
`tmpid` receives the enumeration index of its word in key order. -/
def tmpidsToIds (entries : List (String × Nat)) : List Nat :=
  entries.enum.foldl (fun v p => v.set p.2.2 p.1) (List.replicate entries.length 0)

/-- The phrases after renumbering with stable IDs (the state of
`self.phrases` in `finish` just before sorting). -/
def builderRenumbered (B : FuzzyPhraseSetBuilder) : List (List Nat) :=
  let v := tmpidsToIds B.words_to_tmpids
  B.phrases.map (List.map (fun t => v.getD t 0))

/-- What `finish` streams into the three index builders: words into the
prefix-set builder, eligible `(word, id)` pairs into the fuzzy-map builder,
and ID sequences into the phrase-set builder. -/
structure FinishedArtifacts where
  pfx_stream : List String
  fuzzy_stream : List (String × Nat)
  phrase_stream : List (List Nat)
deriving DecidableEq, Repr

/-- `FuzzyPhraseSetBuilder::finish` (file writing elided; `eligible` stands
for the script-gate regex test). -/
def builderFinish (B : FuzzyPhraseSetBuilder) (eligible : String → Bool) :
    FinishedArtifacts :=
  { pfx_stream := B.words_to_tmpids.map (fun e => e.1),
    fuzzy_stream := (B.words_to_tmpids.enum.filter (fun p => eligible p.2.1)).map
      (fun p => (p.2.1, p.1)),
    phrase_stream := insSort natListLeb (builderRenumbered B) }

/-- A tiny concrete reader over the phrases `"1 2"` and `"2"`: digit tokens
are not fuzzy-eligible (outside the Latin/Greek/Cyrillic scripts), so the
fuzzy map is never consulted. -/
def sampleSet : FuzzyPhraseSet :=
  { word_list := ["1", "2"],
    phrases := [[0, 1], [1]],
    fuzzy_eligible := fun _ => false,
    fuzzy_lookup := fun _ _ => [] }

/-! ### Supporting lemmas about option traversals and combination walks -/

theorem optionTraverse_isSome {α β : Type} {f : α → Option β} :
    ∀ {l : List α}, (∀ a ∈ l, (f a).isSome) → (optionTraverse f l).isSome
  | [], _ => by simp [optionTraverse]
  | a :: as, h => by
    have h1 := h a (List.mem_cons_self a as)
    have h2 := optionTraverse_isSome (l := as)
      (fun x hx => h x (List.mem_cons_of_mem _ hx))
    rw [optionTraverse]
    cases hfa : f a with
    | none => rw [hfa] at h1; simp at h1
    | some b =>
      cases has : optionTraverse f as with
      | none => rw [has] at h2; simp at h2
      | some bs => simp

theorem optionTraverse_eq_none {α β : Type} {f : α → Option β} :
    ∀ {l : List α} {a : α}, a ∈ l → f a = none → optionTraverse f l = none
  | [], a, ha, _ => absurd ha (List.not_mem_nil a)
  | x :: xs, a, ha, hfa => by
    rw [optionTraverse]
    rcases List.mem_cons.mp ha with rfl | ha'
    · simp [hfa]
    · cases hfx : f x with
      | none => rfl
      | some b => rw [optionTraverse_eq_none (l := xs) ha' hfa]

theorem optionTraverse_eq_some_of_all {α β : Type} {f : α → Option β} {g : α → β} :
    ∀ {l : List α}, (∀ a ∈ l, f a = some (g a)) → optionTraverse f l = some (l.map g)
  | [], _ => by simp [optionTraverse]
  | a :: as, h => by
    rw [optionTraverse, h a (List.mem_cons_self a as),
      optionTraverse_eq_some_of_all (l := as) (fun x hx => h x (List.mem_cons_of_mem _ hx))]
    simp

theorem allFullIds_isSome_of_mem_match_combinations {phrases : List (List Nat)}
    {V : List (List QueryWord)} {D : Nat} {c : List QueryWord}
    (hc : c ∈ match_combinations phrases V D) : (allFullIds c).isSome := by
  rw [match_combinations] at hc
  split at hc
  · exact absurd hc (List.not_mem_nil c)
  · rw [List.mem_dedup] at hc
    have hp := List.of_mem_filter hc
    cases h : allFullIds c with
    | some ids => simp
    | none => rw [h] at hp; simp at hp

theorem allFullIds_mem_full : ∀ {c : List QueryWord}, (allFullIds c).isSome →
    ∀ qw ∈ c, ∃ id e, qw = QueryWord.full id e
  | [], _, qw, hqw => absurd hqw (List.not_mem_nil qw)
  | QueryWord.full id e :: rest, hc, qw, hqw => by
    rcases List.mem_cons.mp hqw with rfl | h
    · exact ⟨id, e, rfl⟩
    · refine allFullIds_mem_full ?_ qw h
      rw [allFullIds] at hc
      cases hx : allFullIds rest with
      | none => rw [hx] at hc; simp at hc
      | some v => simp
  | QueryWord.pfx lo hi :: rest, hc, qw, hqw => by
    rw [allFullIds] at hc; simp at hc

theorem reconstructFull_isSome {S : FuzzyPhraseSet} {c : List QueryWord}
    (hc : (allFullIds c).isSome) : (reconstructFull S c).isSome := by
  have hmem := allFullIds_mem_full hc
  rw [reconstructFull]
  cases h1 : optionTraverse (fun qw => match qw with
      | QueryWord.full id _ => some (S.word_list.getD id "")
      | QueryWord.pfx _ _ => none) c with
  | none =>
    exfalso
    have hs := optionTraverse_isSome (f := fun qw => match qw with
      | QueryWord.full id _ => some (S.word_list.getD id "")
      | QueryWord.pfx _ _ => none) (l := c) (fun a ha => by
        obtain ⟨id, e, rfl⟩ := hmem a ha; simp)
    rw [h1] at hs; simp at hs
  | some strs =>
    cases h2 : optionTraverse (fun qw => match qw with
        | QueryWord.full _ e => some e
        | QueryWord.pfx _ _ => none) c with
    | none =>
      exfalso
      have hs := optionTraverse_isSome (f := fun qw => match qw with
        | QueryWord.full _ e => some e
        | QueryWord.pfx _ _ => none) (l := c) (fun a ha => by
          obtain ⟨id, e, rfl⟩ := hmem a ha; simp)
      rw [h2] at hs; simp at hs
    | some eds => simp

/-! ### Claim theorems: equality impl, clamping, aborts, builder duplicate -/

/-- C10: the `PartialEq<FuzzyMatchResult>` implementation for
`FuzzyWindowResult` compares exactly the `phrase` fields; edit distance,
start position and prefixness are ignored, so two results with the same
phrase but different edit distances compare equal. -/
theorem window_eq_match_iff :
    (∀ (a : FuzzyWindowResult) (b : FuzzyMatchResult),
      windowEqMatchResult a b = true ↔ a.phrase = b.phrase) ∧
    (∀ (p : List String) (e₁ s : Nat) (f : Bool) (e₂ : Nat),
      windowEqMatchResult ⟨p, e₁, s, f⟩ ⟨p, e₂⟩ = true) := by
  constructor
  · intro a b
    simp [windowEqMatchResult]
  · intro p e₁ s f e₂
    simp [windowEqMatchResult]

/-- Closed instance of `window_eq_match_iff`: same phrase, different edit
distances, still equal. -/
theorem window_eq_match_iff_witness :
    windowEqMatchResult ⟨["x"], 1, 0, false⟩ ⟨["x"], 2⟩ = true :=
  window_eq_match_iff.2 ["x"] 1 0 false 2

/-- C7: every query operation clamps the per-word distance to the build-time
maximum of 1: calling with any `w > 1` returns the same results as `w = 1`,
with no error. -/
theorem word_dist_clamped (S : FuzzyPhraseSet) (p : List String)
    (Q : List (List String × Bool)) (w D : Nat) (eip : Bool) (h : 1 < w) :
    fuzzy_match S p w D = fuzzy_match S p 1 D ∧
    fuzzy_match_pfx S p w D = fuzzy_match_pfx S p 1 D ∧
    fuzzy_match_windows S p w D eip = fuzzy_match_windows S p 1 D eip ∧
    fuzzy_match_multi S Q w D = fuzzy_match_multi S Q 1 D := by
  have hm : min w 1 = 1 := Nat.min_eq_right (Nat.le_of_lt h)
  refine ⟨?_, ?_, ?_, ?_⟩
  · rw [fuzzy_match, fuzzy_match, hm, Nat.min_self]
  · rw [fuzzy_match_pfx, fuzzy_match_pfx, hm, Nat.min_self]
  · rw [fuzzy_match_windows, fuzzy_match_windows, hm, Nat.min_self]
  · rw [fuzzy_match_multi, fuzzy_match_multi, hm, Nat.min_self]

/-- Closed instance of `word_dist_clamped` at `w = 2` on the sample set. -/
theorem word_dist_clamped_witness :
    1 < 2 ∧
    (fuzzy_match sampleSet ["1"] 2 1 = fuzzy_match sampleSet ["1"] 1 1 ∧
     fuzzy_match_pfx sampleSet ["1"] 2 1 = fuzzy_match_pfx sampleSet ["1"] 1 1 ∧
     fuzzy_match_windows sampleSet ["1"] 2 1 false =
       fuzzy_match_windows sampleSet ["1"] 1 1 false ∧
     fuzzy_match_multi sampleSet [(["2"], false)] 2 1 =
       fuzzy_match_multi sampleSet [(["2"], false)] 1 1) :=
  ⟨by decide, word_dist_clamped sampleSet ["1"] [(["2"], false)] 2 1 false (by decide)⟩

/-- C4 (failing input): an empty input phrase yields an empty result set for
`fuzzy_match`, `fuzzy_match_prefix` and `fuzzy_match_windows`, and for a
`fuzzy_match_multi` entry with `ends_in_prefix = false`; but a
`fuzzy_match_multi` entry whose phrase is empty with `ends_in_prefix = true`
hits the `phrase.len() - 1` underflow and aborts instead of returning an
empty result set. -/
theorem fuzzy_match_multi_aborts_on_empty_pfx_query :
    fuzzy_match sampleSet [] 1 1 = some [] ∧
    fuzzy_match_pfx sampleSet [] 1 1 = [] ∧
    fuzzy_match_windows sampleSet [] 1 1 true = [] ∧
    fuzzy_match_windows sampleSet [] 1 1 false = [] ∧
    fuzzy_match_multi sampleSet [([], false)] 1 1 = some [[]] ∧
    fuzzy_match_multi sampleSet [([], true)] 1 1 = none :=
  ⟨rfl, rfl, rfl, rfl, by decide, by decide⟩

/-- C3 (failing input): on the sample set (phrases `"1 2"` and `"2"`),
windowed search over `["1", "2"]` ending in a prefix also matches the window
starting at position 1; its only slot matches the stored phrase `"2"` as a
`pfx` variant, and the claim requires the reported token to be the input
token at `start_position + 0 = 1`, namely `"2"`; but the source indexes the
input with the offset inside the emitted phrase counted from the chunk
start (the shadowed loop variable), reporting `"1"`. -/
theorem fuzzy_match_windows_pfx_slot_wrong_token :
    fuzzy_match_windows sampleSet ["1", "2"] 1 1 true =
      [{ phrase := ["1", "2"], edit_distance := 0, start_position := 0,
         ends_in_pfx := true },
       { phrase := ["1"], edit_distance := 0, start_position := 1,
         ends_in_pfx := true }] ∧
    (["1"] : List String) ≠ [List.getD ["1", "2"] 1 ""] := by
  exact ⟨by decide, by decide⟩

/-- C2 (failing input): inserting the phrase `["a"]` twice and finishing
streams the ID sequence `[0]` twice into the phrase-set builder: the source
sorts `self.phrases` but never deduplicates them. -/
theorem builder_finish_emits_duplicate :
    (builderFinish (builderOfList [["a"], ["a"]]) (fun _ => true)).phrase_stream
        = [[0], [0]] ∧
    ¬ (builderFinish (builderOfList [["a"], ["a"]]) (fun _ => true)).phrase_stream.Nodup := by
  exact ⟨by decide, by decide⟩

/-- C5: if any token of a `contains` query is absent from the token
dictionary, the query returns `false`, and it does so without consulting the
phrase set: the result is `false` for every possible phrase-set content. -/
theorem contains_missing_token_false (S : FuzzyPhraseSet) (p : List String)
    (w : String) (hw : w ∈ p) (hmiss : psGet S w = none)
    (ps' : List (List Nat)) :
    FuzzyPhraseSet.containsPhrase { S with phrases := ps' } p = false := by
  have hres : resolveExact { S with phrases := ps' } p = none := by
    apply optionTraverse_eq_none hw
    exact hmiss
  rw [FuzzyPhraseSet.containsPhrase, hres]

/-- Closed instance of `contains_missing_token_false`: `"x"` is not in the
sample dictionary, and `contains` is `false` however the phrase set reads. -/
theorem contains_missing_token_false_witness :
    "x" ∈ ["1", "x"] ∧ psGet sampleSet "x" = none ∧
    FuzzyPhraseSet.containsPhrase { sampleSet with phrases := [[5]] } ["1", "x"] = false :=
  ⟨by decide, by decide,
    contains_missing_token_false sampleSet ["1", "x"] "x" (by decide) (by decide) [[5]]⟩

/-- Unfolded form of nonterminal resolution (the `let` reduced away). -/
theorem get_nonterminal_eq (S : FuzzyPhraseSet) (word : String) (ed : Nat) :
    get_nonterminal_word_possibilities S word ed =
      if S.fuzzy_eligible word then
        (if (S.fuzzy_lookup word ed).length = 0 then none
         else some ((S.fuzzy_lookup word ed).map (fun r => QueryWord.full r.1 r.2)))
      else
        match psGet S word with
        | some word_id => some [QueryWord.full word_id 0]
        | none => none := rfl

/-- C9: nonterminal resolution supplies only `full` variants, the
combination walk only returns all-`full` sequences drawn from the slots, and
therefore the `panic!("prefixes not allowed")` arms in `fuzzy_match`'s
result reconstruction are unreachable: `fuzzy_match` always returns a value. -/
theorem fuzzy_match_no_abort (S : FuzzyPhraseSet) (p : List String) (w D : Nat) :
    (∀ word ed v, v ∈ (get_nonterminal_word_possibilities S word ed).getD [] →
      ∃ id e, v = QueryWord.full id e) ∧
    (fuzzy_match S p w D).isSome := by
  constructor
  · intro word ed v hv
    rw [get_nonterminal_eq] at hv
    by_cases he : S.fuzzy_eligible word
    · rw [if_pos he] at hv
      by_cases hz : (S.fuzzy_lookup word ed).length = 0
      · rw [if_pos hz] at hv
        exact absurd hv (List.not_mem_nil v)
      · rw [if_neg hz] at hv
        simp only [Option.getD_some, List.mem_map] at hv
        obtain ⟨r, _, rfl⟩ := hv
        exact ⟨r.1, r.2, rfl⟩
    · rw [if_neg he] at hv
      cases hg : psGet S word with
      | some word_id =>
        rw [hg] at hv
        simp only [Option.getD_some, List.mem_singleton] at hv
        exact ⟨word_id, 0, hv⟩
      | none =>
        rw [hg] at hv
        exact absurd hv (List.not_mem_nil v)
  · rw [fuzzy_match]
    cases hres : resolveNonterminalAll S p (min w 1) with
    | none => simp
    | some V =>
      simp only [Option.isSome_some]
      apply optionTraverse_isSome
      intro c hc
      exact reconstructFull_isSome (allFullIds_isSome_of_mem_match_combinations hc)

/-- Closed instance of `fuzzy_match_no_abort`. -/
theorem fuzzy_match_no_abort_witness :
    (fuzzy_match sampleSet ["1", "2"] 1 1).isSome :=
  (fuzzy_match_no_abort sampleSet ["1", "2"] 1 1).2

/-- Unfolded form of terminal resolution (the `let`s reduced away). -/
theorem get_terminal_eq (S : FuzzyPhraseSet) (word : String) (ed : Nat) :
    get_terminal_word_possibilities S word ed =
      (if ((match psGetPfxRange S word with
            | some r => [QueryWord.pfx r.1 r.2]
            | none => []) ++
           (if S.fuzzy_eligible word then
              ((S.fuzzy_lookup word ed).filter
                (fun r => !((psGetPfxRange S word).isSome && r.2 == 0))).map
                (fun r => QueryWord.full r.1 r.2)
            else [])).length > 0 then
        some ((match psGetPfxRange S word with
            | some r => [QueryWord.pfx r.1 r.2]
            | none => []) ++
           (if S.fuzzy_eligible word then
              ((S.fuzzy_lookup word ed).filter
                (fun r => !((psGetPfxRange S word).isSome && r.2 == 0))).map
                (fun r => QueryWord.full r.1 r.2)
            else []))
      else none) := by
  rw [get_terminal_word_possibilities]
  cases psGetPfxRange S word with
  | none => by_cases he : S.fuzzy_eligible word <;> simp [he]
  | some r => by_cases he : S.fuzzy_eligible word <;> simp [he]

/-- C6: terminal resolution holds a `pfx` variant iff a word-prefix range
was found; a `full id e` variant appears iff the word is fuzzy-eligible and
`(id, e)` is a fuzzy hit that is not an exact (distance-0) duplicate of a
found range; and the result is `None` iff no range was found and the fuzzy
side contributed nothing. -/
theorem terminal_word_possibilities_spec (S : FuzzyPhraseSet) (w : String) (d : Nat) :
    ((∃ lo hi, QueryWord.pfx lo hi ∈ (get_terminal_word_possibilities S w d).getD []) ↔
      (psGetPfxRange S w).isSome) ∧
    (∀ id e, QueryWord.full id e ∈ (get_terminal_word_possibilities S w d).getD [] ↔
      (S.fuzzy_eligible w = true ∧ (id, e) ∈ S.fuzzy_lookup w d ∧
        ¬((psGetPfxRange S w).isSome ∧ e = 0))) ∧
    (get_terminal_word_possibilities S w d = none ↔
      (psGetPfxRange S w = none ∧
        (S.fuzzy_eligible w = false ∨ S.fuzzy_lookup w d = []))) := by
  rw [get_terminal_eq]
  cases hr : psGetPfxRange S w with
  | some r =>
    by_cases he : S.fuzzy_eligible w
    · refine ⟨?_, ?_, ?_⟩
      · simp [he]
      · intro id e
        simp [he, And.comm]
        constructor
        · rintro ⟨a, b, ⟨rfl, rfl⟩, h1, h2⟩
          exact ⟨h1, h2⟩
        · rintro ⟨h1, h2⟩
          exact ⟨id, e, ⟨rfl, rfl⟩, h1, h2⟩
      · simp [he]
    · refine ⟨?_, ?_, ?_⟩
      · simp [he]
      · intro id e
        simp [he]
      · simp [he]
  | none =>
    by_cases he : S.fuzzy_eligible w
    · cases hl : S.fuzzy_lookup w d with
      | nil => refine ⟨?_, ?_, ?_⟩ <;> simp [he, hl]
      | cons x xs =>
        refine ⟨?_, ?_, ?_⟩
        · simp [he, hl]
        · intro id e
          simp [he, hl, Prod.ext_iff]
        · simp [he, hl]
    · refine ⟨?_, ?_, ?_⟩ <;> simp [he]

/-- Closed instance of `terminal_word_possibilities_spec` on the sample set. -/
theorem terminal_word_possibilities_spec_witness :
    (∃ lo hi, QueryWord.pfx lo hi ∈ (get_terminal_word_possibilities sampleSet "1" 1).getD []) ↔
      (psGetPfxRange sampleSet "1").isSome :=
  (terminal_word_possibilities_spec sampleSet "1" 1).1

/-! ### String order facts (for the builder's BTreeMap model) -/

theorem charListLt_irrefl : ∀ l : List Char, charListLt l l = false
  | [] => rfl
  | a :: as => by
    rw [charListLt]
    simp [charListLt_irrefl as]

theorem strLt_irrefl (s : String) : strLt s s = false := charListLt_irrefl s.data

theorem charListLt_trans : ∀ {a b c : List Char},
    charListLt a b = true → charListLt b c = true → charListLt a c = true
  | [], [], _, hab, _ => by rw [charListLt] at hab; exact absurd hab (by simp)
  | [], _ :: _, [], _, hbc => by rw [charListLt] at hbc; exact absurd hbc (by simp)
  | [], _ :: _, _ :: _, _, _ => rfl
  | _ :: _, [], _, hab, _ => by rw [charListLt] at hab; exact absurd hab (by simp)
  | _ :: _, _ :: _, [], _, hbc => by rw [charListLt] at hbc; exact absurd hbc (by simp)
  | a :: as, b :: bs, c :: cs, hab, hbc => by
    rw [charListLt] at hab hbc ⊢
    simp only [Bool.or_eq_true, Bool.and_eq_true, decide_eq_true_eq, beq_iff_eq]
      at hab hbc ⊢
    rcases hab with hab | ⟨rfl, hab⟩
    · rcases hbc with hbc | ⟨rfl, _⟩
      · exact Or.inl (lt_trans hab hbc)
      · exact Or.inl hab
    · rcases hbc with hbc | ⟨rfl, hbc⟩
      · exact Or.inl hbc
      · exact Or.inr ⟨rfl, charListLt_trans hab hbc⟩

theorem strLt_trans {a b c : String} (h1 : strLt a b = true) (h2 : strLt b c = true) :
    strLt a c = true := charListLt_trans h1 h2

theorem charListLt_conn : ∀ {a b : List Char},
    charListLt a b = false → charListLt b a = false → a = b
  | [], [], _, _ => rfl
  | [], _ :: _, hab, _ => by rw [charListLt] at hab; exact absurd hab (by simp)
  | _ :: _, [], _, hba => by rw [charListLt] at hba; exact absurd hba (by simp)
  | a :: as, b :: bs, hab, hba => by
    rw [charListLt] at hab hba
    simp only [Bool.or_eq_false_iff, Bool.and_eq_false_iff, decide_eq_false_iff_not,
      beq_iff_eq, beq_eq_false_iff_ne, ne_eq] at hab hba
    obtain ⟨hab1, hab2⟩ := hab
    obtain ⟨hba1, hba2⟩ := hba
    have hac : a = b := by
      rcases lt_trichotomy a b with h | h | h
      · exact absurd h hab1
      · exact h
      · exact absurd h hba1
    subst hac
    rcases hab2 with h | h
    · exact absurd rfl h
    · rcases hba2 with h' | h'
      · exact absurd rfl h'
      · rw [charListLt_conn h h']

theorem strLt_conn {a b : String} (h1 : strLt a b = false) (h2 : strLt b a = false) :
    a = b := String.ext (charListLt_conn h1 h2)

theorem strLt_ne {a b : String} (h : strLt a b = true) : a ≠ b := by
  intro he
  subst he
  rw [strLt_irrefl] at h
  exact absurd h (by simp)

/-! ### Assoc-map lemmas for the builder's word table -/

theorem lookup_eq_none_iff {β : Type} : ∀ {m : List (String × β)} {w : String},
    m.lookup w = none ↔ ∀ e ∈ m, e.1 ≠ w
  | [], w => by simp
  | (k, b) :: rest, w => by
    cases he : (w == k) with
    | true =>
      rw [beq_iff_eq] at he
      subst he
      simp [List.lookup_cons]
    | false =>
      rw [beq_eq_false_iff_ne] at he
      simp only [List.lookup_cons, beq_eq_false_iff_ne, ne_eq]
      rw [show ((w == k) = false) from by simp [he]]
      simp only [List.mem_cons, forall_eq_or_imp]
      rw [lookup_eq_none_iff (m := rest)]
      constructor
      · intro h
        exact ⟨fun hk => he hk.symm, h⟩
      · intro h
        exact h.2

theorem lookup_some_of_mem_nodupkeys {β : Type} :
    ∀ {m : List (String × β)} {w : String} {t : β},
      (m.map (fun e => e.1)).Nodup → (w, t) ∈ m → m.lookup w = some t
  | [], _, _, _, hmem => absurd hmem (List.not_mem_nil _)
  | (k, b) :: rest, w, t, hnd, hmem => by
    rw [List.map_cons, List.nodup_cons] at hnd
    rcases List.mem_cons.mp hmem with he | hmem'
    · rw [Prod.ext_iff] at he
      obtain ⟨h1, h2⟩ := he
      subst h1; subst h2
      simp [List.lookup_cons]
    · have hne : w ≠ k := by
        intro hwk
        subst hwk
        exact hnd.1 (List.mem_map.mpr ⟨(w, t), hmem', rfl⟩)
      simp only [List.lookup_cons]
      rw [show ((w == k) = false) from by simp [hne]]
      exact lookup_some_of_mem_nodupkeys hnd.2 hmem'

theorem mem_of_lookup_some {β : Type} : ∀ {m : List (String × β)} {w : String} {t : β},
    m.lookup w = some t → (w, t) ∈ m
  | [], _, _, h => by simp [List.lookup] at h
  | (k, b) :: rest, w, t, h => by
    rw [List.lookup_cons] at h
    cases he : (w == k) with
    | true =>
      rw [he] at h
      rw [beq_iff_eq] at he
      subst he
      cases h
      exact List.mem_cons_self _ _
    | false =>
      rw [he] at h
      exact List.mem_cons_of_mem _ (mem_of_lookup_some h)

/-- `btreeInsert` under a fresh key behaves like consing, up to order. -/
theorem btreeInsert_perm {t : Nat} : ∀ {m : List (String × Nat)} {w : String},
    m.lookup w = none → (btreeInsert w t m).Perm ((w, t) :: m)
  | [], w, _ => by simp [btreeInsert]
  | (k, b) :: rest, w, hw => by
    rw [btreeInsert]
    by_cases hlt : strLt w k = true
    · rw [if_pos hlt]
    · rw [if_neg hlt]
      have hne : w ≠ k := by
        have := (lookup_eq_none_iff.mp hw) (k, b) (List.mem_cons_self _ _)
        exact fun h => this h.symm
      rw [show ((w == k) = false) from by simp [hne]]
      have hrest : rest.lookup w = none := by
        rw [lookup_eq_none_iff]
        intro e he
        exact (lookup_eq_none_iff.mp hw) e (List.mem_cons_of_mem _ he)
      exact List.Perm.trans (List.Perm.cons _ (btreeInsert_perm hrest))
        (List.Perm.swap _ _ _)

theorem btreeInsert_head_cases (t : Nat) : ∀ (m : List (String × Nat)) (w : String),
    ((btreeInsert w t m).map (fun e => e.1)).head? = some w ∨
    ((btreeInsert w t m).map (fun e => e.1)).head? = (m.map (fun e => e.1)).head?
  | [], w => Or.inl rfl
  | (k, b) :: rest, w => by
    rw [btreeInsert]
    by_cases hlt : strLt w k = true
    · rw [if_pos hlt]
      exact Or.inl rfl
    · rw [if_neg hlt]
      by_cases he : (w == k) = true
      · rw [if_pos he]
        exact Or.inr rfl
      · rw [if_neg he]
        exact Or.inr rfl

theorem btreeInsert_sorted (t : Nat) : ∀ {m : List (String × Nat)} {w : String},
    m.lookup w = none →
    List.Chain' (fun a b => strLt a b = true) (m.map (fun e => e.1)) →
    List.Chain' (fun a b => strLt a b = true) ((btreeInsert w t m).map (fun e => e.1))
  | [], w, _, _ => by
    rw [btreeInsert]
    exact List.chain'_singleton w
  | (k, b) :: rest, w, hw, hch => by
    have hne : w ≠ k :=
      fun h => (lookup_eq_none_iff.mp hw) (k, b) (List.mem_cons_self _ _) h.symm
    have hrest : rest.lookup w = none := by
      rw [lookup_eq_none_iff]
      exact fun e he => (lookup_eq_none_iff.mp hw) e (List.mem_cons_of_mem _ he)
    rw [btreeInsert]
    by_cases hlt : strLt w k = true
    · rw [if_pos hlt]
      rw [List.map_cons, List.map_cons, List.chain'_cons]
      exact ⟨hlt, hch⟩
    · rw [if_neg hlt]
      rw [show ((w == k) = false) from by simp [hne], if_neg (by simp)]
      have hkw : strLt k w = true := by
        cases hkw : strLt k w with
        | true => rfl
        | false =>
          exact absurd (strLt_conn (by simpa using hlt) hkw) hne
      rw [List.map_cons] at hch ⊢
      rw [List.chain'_cons'] at hch ⊢
      refine ⟨?_, btreeInsert_sorted t hrest hch.2⟩
      intro y hy
      rcases btreeInsert_head_cases t rest w with hc | hc
      · rw [hc] at hy
        cases hy
        exact hkw
      · rw [hc] at hy
        exact hch.1 y hy

theorem btreeInsert_lookup_other (t : Nat) : ∀ {m : List (String × Nat)} {w w' : String},
    w' ≠ w → (btreeInsert w t m).lookup w' = m.lookup w'
  | [], w, w', hne => by
    rw [btreeInsert]
    simp [List.lookup_cons, show ((w' == w) = false) from by simp [hne], List.lookup]
  | (k, b) :: rest, w, w', hne => by
    rw [btreeInsert]
    by_cases hlt : strLt w k = true
    · rw [if_pos hlt]
      rw [List.lookup_cons, show ((w' == w) = false) from by simp [hne]]
    · rw [if_neg hlt]
      by_cases he : (w == k) = true
      · rw [if_pos he]
      · rw [if_neg he]
        rw [List.lookup_cons, List.lookup_cons]
        cases hk : (w' == k) with
        | true => rfl
        | false => exact btreeInsert_lookup_other t hne

theorem btreeInsert_lookup_self (t : Nat) : ∀ {m : List (String × Nat)} {w : String},
    m.lookup w = none → (btreeInsert w t m).lookup w = some t
  | [], w, _ => by
    rw [btreeInsert]
    simp [List.lookup_cons]
  | (k, b) :: rest, w, hw => by
    have hne : w ≠ k :=
      fun h => (lookup_eq_none_iff.mp hw) (k, b) (List.mem_cons_self _ _) h.symm
    have hrest : rest.lookup w = none := by
      rw [lookup_eq_none_iff]
      exact fun e he => (lookup_eq_none_iff.mp hw) e (List.mem_cons_of_mem _ he)
    rw [btreeInsert]
    by_cases hlt : strLt w k = true
    · rw [if_pos hlt]
      simp [List.lookup_cons]
    · rw [if_neg hlt]
      rw [show ((w == k) = false) from by simp [hne], if_neg (by simp)]
      rw [List.lookup_cons, show ((w == k) = false) from by simp [hne]]
      exact btreeInsert_lookup_self t hrest

theorem builderAddWord_lookup_self (m : List (String × Nat)) (w : String) :
    (builderAddWord m w).1.lookup w = some (builderAddWord m w).2 := by
  rw [builderAddWord]
  cases hl : m.lookup w with
  | some t => exact hl
  | none => exact btreeInsert_lookup_self _ hl

theorem builderAddWord_lookup_mono {m : List (String × Nat)} (w : String)
    {w' : String} {t : Nat} (h : m.lookup w' = some t) :
    (builderAddWord m w).1.lookup w' = some t := by
  rw [builderAddWord]
  cases hl : m.lookup w with
  | some t0 => exact h
  | none =>
    have hne : w' ≠ w := fun he => by rw [he, hl] at h; cases h
    rw [btreeInsert_lookup_other _ hne]
    exact h

theorem builderAddWord_lookup_ne_iff (m : List (String × Nat)) (w w' : String) :
    ((builderAddWord m w).1.lookup w' ≠ none) ↔ (m.lookup w' ≠ none ∨ w' = w) := by
  rw [builderAddWord]
  cases hl : m.lookup w with
  | some t =>
    constructor
    · intro h
      exact Or.inl h
    · intro h
      rcases h with h | rfl
      · exact h
      · rw [hl]
        simp
  | none =>
    by_cases he : w' = w
    · subst he
      rw [btreeInsert_lookup_self _ hl]
      simp
    · rw [btreeInsert_lookup_other _ he]
      simp [he]

theorem builderAddWord_sorted {m : List (String × Nat)} (w : String)
    (h : List.Chain' (fun a b => strLt a b = true) (m.map (fun e => e.1))) :
    List.Chain' (fun a b => strLt a b = true)
      ((builderAddWord m w).1.map (fun e => e.1)) := by
  rw [builderAddWord]
  cases hl : m.lookup w with
  | some t => exact h
  | none => exact btreeInsert_sorted _ hl h

theorem builderAddWord_vals {m : List (String × Nat)} (w : String)
    (h : (m.map (fun e => e.2)).Perm (List.range m.length)) :
    ((builderAddWord m w).1.map (fun e => e.2)).Perm
      (List.range (builderAddWord m w).1.length) := by
  rw [builderAddWord]
  cases hl : m.lookup w with
  | some t => exact h
  | none =>
    have hperm := btreeInsert_perm (t := m.length) hl
    have hlen : (btreeInsert w m.length m).length = m.length + 1 := by
      rw [hperm.length_eq]
      simp
    rw [hlen]
    have h1 : ((btreeInsert w m.length m).map (fun e => e.2)).Perm
        (m.length :: m.map (fun e => e.2)) := hperm.map _
    refine h1.trans ?_
    rw [List.range_succ]
    refine List.Perm.trans (List.Perm.cons _ h) ?_
    exact (List.perm_append_singleton _ _).symm

theorem insertWords_spec : ∀ (p : List String) (m : List (String × Nat)),
    List.Chain' (fun a b => strLt a b = true) (m.map (fun e => e.1)) →
    ((m.map (fun e => e.2)).Perm (List.range m.length)) →
    (List.Chain' (fun a b => strLt a b = true)
        ((insertWords m p).map (fun e => e.1)) ∧
      ((insertWords m p).map (fun e => e.2)).Perm
        (List.range (insertWords m p).length)) ∧
    (∀ w' t, m.lookup w' = some t → (insertWords m p).lookup w' = some t) ∧
    (∀ w', (insertWords m p).lookup w' ≠ none ↔ (m.lookup w' ≠ none ∨ w' ∈ p)) ∧
    insertIds m p = p.map (fun w => ((insertWords m p).lookup w).getD 0)
  | [], m, hs, hv => by
    refine ⟨⟨hs, hv⟩, ?_, ?_, rfl⟩
    · intro w' t h
      exact h
    · intro w'
      simp [insertWords]
  | w :: ws, m, hs, hv => by
    have hs1 := builderAddWord_sorted w hs
    have hv1 := builderAddWord_vals w hv
    obtain ⟨⟨hs2, hv2⟩, hmono, hiff, hids⟩ :=
      insertWords_spec ws (builderAddWord m w).1 hs1 hv1
    rw [show insertWords m (w :: ws) = insertWords (builderAddWord m w).1 ws from rfl]
    refine ⟨⟨hs2, hv2⟩, ?_, ?_, ?_⟩
    · intro w' t h
      exact hmono w' t (builderAddWord_lookup_mono w h)
    · intro w'
      rw [hiff w', List.mem_cons]
      rw [builderAddWord_lookup_ne_iff]
      constructor
      · rintro ((h | h) | h)
        · exact Or.inl h
        · exact Or.inr (Or.inl h)
        · exact Or.inr (Or.inr h)
      · rintro (h | h | h)
        · exact Or.inl (Or.inl h)
        · exact Or.inl (Or.inr h)
        · exact Or.inr h
    · rw [show insertIds m (w :: ws) =
        (builderAddWord m w).2 :: insertIds (builderAddWord m w).1 ws from rfl]
      rw [List.map_cons]
      have hfin := hmono w (builderAddWord m w).2 (builderAddWord_lookup_self m w)
      rw [hfin, hids]
      rfl

theorem builderInsert_foldl_aux (p : List String) :
    ∀ (m : List (String × Nat)) (acc : List Nat),
      p.foldl (fun (st : List (String × Nat) × List Nat) w =>
          let r := builderAddWord st.1 w
          (r.1, st.2 ++ [r.2])) (m, acc) =
        (insertWords m p, acc ++ insertIds m p) := by
  induction p with
  | nil =>
    intro m acc
    simp [insertWords, insertIds]
  | cons w ws ih =>
    intro m acc
    rw [List.foldl_cons, ih]
    rw [show insertWords m (w :: ws) = insertWords (builderAddWord m w).1 ws from rfl]
    rw [show insertIds m (w :: ws) =
      (builderAddWord m w).2 :: insertIds (builderAddWord m w).1 ws from rfl]
    simp

theorem builderInsert_eq (B : FuzzyPhraseSetBuilder) (p : List String) :
    builderInsert B p = ⟨B.phrases ++ [insertIds B.words_to_tmpids p],
      insertWords B.words_to_tmpids p⟩ := by
  rw [builderInsert, builderInsert_foldl_aux p B.words_to_tmpids []]
  simp

theorem builderFold_spec : ∀ (ps : List (List String)) (B : FuzzyPhraseSetBuilder),
    List.Chain' (fun a b => strLt a b = true)
      (B.words_to_tmpids.map (fun e => e.1)) →
    ((B.words_to_tmpids.map (fun e => e.2)).Perm
      (List.range B.words_to_tmpids.length)) →
    (List.Chain' (fun a b => strLt a b = true)
        ((ps.foldl builderInsert B).words_to_tmpids.map (fun e => e.1)) ∧
      (((ps.foldl builderInsert B).words_to_tmpids.map (fun e => e.2)).Perm
        (List.range (ps.foldl builderInsert B).words_to_tmpids.length))) ∧
    (∀ w' t, B.words_to_tmpids.lookup w' = some t →
      (ps.foldl builderInsert B).words_to_tmpids.lookup w' = some t) ∧
    (∀ w', (ps.foldl builderInsert B).words_to_tmpids.lookup w' ≠ none ↔
      (B.words_to_tmpids.lookup w' ≠ none ∨ w' ∈ ps.flatten)) ∧
    (ps.foldl builderInsert B).phrases = B.phrases ++ ps.map (fun p => p.map (fun w =>
      ((ps.foldl builderInsert B).words_to_tmpids.lookup w).getD 0))
  | [], B, hs, hv => by
    refine ⟨⟨hs, hv⟩, ?_, ?_, by simp⟩
    · intro w' t h
      exact h
    · intro w'
      simp
  | p :: ps', B, hs, hv => by
    obtain ⟨⟨hs1, hv1⟩, hmono1, hiff1, hids1⟩ := insertWords_spec p B.words_to_tmpids hs hv
    have hb1 : (builderInsert B p).words_to_tmpids = insertWords B.words_to_tmpids p := by
      rw [builderInsert_eq]
    have hb1p : (builderInsert B p).phrases =
        B.phrases ++ [insertIds B.words_to_tmpids p] := by
      rw [builderInsert_eq]
    rw [List.foldl_cons]
    obtain ⟨⟨hs2, hv2⟩, hmono2, hiff2, hphr2⟩ :=
      builderFold_spec ps' (builderInsert B p) (by rw [hb1]; exact hs1)
        (by rw [hb1]; exact hv1)
    refine ⟨⟨hs2, hv2⟩, ?_, ?_, ?_⟩
    · intro w' t h
      refine hmono2 w' t ?_
      rw [hb1]
      exact hmono1 w' t h
    · intro w'
      rw [hiff2 w', hb1, hiff1 w', List.flatten_cons, List.mem_append]
      constructor
      · rintro ((h | h) | h)
        · exact Or.inl h
        · exact Or.inr (Or.inl h)
        · exact Or.inr (Or.inr h)
      · rintro (h | h | h)
        · exact Or.inl (Or.inl h)
        · exact Or.inl (Or.inr h)
        · exact Or.inr h
    · rw [hphr2, hb1p, List.map_cons, List.append_assoc]
      congr 2
      rw [hids1, List.singleton_append]
      congr 1
      apply List.map_congr_left
      intro w hw
      have hne : (insertWords B.words_to_tmpids p).lookup w ≠ none := by
        rw [hiff1 w]
        exact Or.inr hw
      cases hl : (insertWords B.words_to_tmpids p).lookup w with
      | none => exact absurd hl hne
      | some t =>
        have hfin := hmono2 w t (by rw [hb1]; exact hl)
        rw [hfin]

theorem foldl_set_spec : ∀ (l : List (Nat × String × Nat)) (v0 : List Nat),
    (∀ p ∈ l, p.2.2 < v0.length) → (l.map (fun p => p.2.2)).Nodup →
    (∀ p ∈ l, (l.foldl (fun v q => v.set q.2.2 q.1) v0).getD p.2.2 0 = p.1) ∧
    (∀ k, k ∉ l.map (fun p => p.2.2) →
      (l.foldl (fun v q => v.set q.2.2 q.1) v0).getD k 0 = v0.getD k 0) ∧
    (l.foldl (fun v q => v.set q.2.2 q.1) v0).length = v0.length
  | [], v0, _, _ => by
    refine ⟨?_, ?_, rfl⟩
    · intro p hp
      exact absurd hp (List.not_mem_nil p)
    · intro k _
      rfl
  | q :: rest, v0, hb, hnd => by
    rw [List.map_cons, List.nodup_cons] at hnd
    have hbq : q.2.2 < v0.length := hb q (List.mem_cons_self _ _)
    have hb' : ∀ p ∈ rest, p.2.2 < (v0.set q.2.2 q.1).length := by
      intro p hp
      rw [List.length_set]
      exact hb p (List.mem_cons_of_mem _ hp)
    obtain ⟨hA, hB, hC⟩ := foldl_set_spec rest (v0.set q.2.2 q.1) hb' hnd.2
    rw [List.foldl_cons]
    refine ⟨?_, ?_, by rw [hC, List.length_set]⟩
    · intro p hp
      rcases List.mem_cons.mp hp with rfl | hp'
      · rw [hB p.2.2 hnd.1]
        rw [List.getD_eq_getElem?_getD, List.getElem?_set, if_pos rfl, if_pos hbq]
        rfl
      · exact hA p hp'
    · intro k hk
      rw [List.map_cons, List.mem_cons] at hk
      push_neg at hk
      rw [hB k (fun h => hk.2 h)]
      rw [List.getD_eq_getElem?_getD, List.getElem?_set,
        if_neg (fun h => hk.1 h.symm), ← List.getD_eq_getElem?_getD]

theorem tmpidsToIds_spec (entries : List (String × Nat))
    (hperm : (entries.map (fun e => e.2)).Perm (List.range entries.length)) :
    ∀ j (hj : j < entries.length),
      (tmpidsToIds entries).getD (entries.get ⟨j, hj⟩).2 0 = j := by
  have henum : entries.enum.map (fun p => p.2.2) = entries.map (fun e => e.2) := by
    have h1 : entries.enum.map (fun p => p.2.2) =
        (entries.enum.map Prod.snd).map (fun e => e.2) := by
      rw [List.map_map]
      rfl
    rw [h1, List.enum_map_snd]
  have hb : ∀ p ∈ entries.enum, p.2.2 < (List.replicate entries.length 0).length := by
    intro p hp
    rw [List.length_replicate]
    have : p.2.2 ∈ entries.enum.map (fun p => p.2.2) := List.mem_map.mpr ⟨p, hp, rfl⟩
    rw [henum] at this
    exact List.mem_range.mp (hperm.mem_iff.mp this)
  have hnd : (entries.enum.map (fun p => p.2.2)).Nodup := by
    rw [henum]
    exact hperm.symm.nodup (List.nodup_range _)
  obtain ⟨hA, _, _⟩ := foldl_set_spec entries.enum (List.replicate entries.length 0) hb hnd
  intro j hj
  have hjl : j < entries.enum.length := by
    rw [List.enum_length]
    exact hj
  have hmem : (j, entries.get ⟨j, hj⟩) ∈ entries.enum := by
    have h2 : entries.enum[j] ∈ entries.enum := List.getElem_mem hjl
    rw [List.getElem_enum] at h2
    simpa using h2
  have := hA (j, entries.get ⟨j, hj⟩) hmem
  exact this

theorem findIdx_shift (p : String → Bool) : ∀ (l : List String) (i : Nat),
    List.findIdx? p l (i + 1) = (List.findIdx? p l i).map (· + 1)
  | [], i => rfl
  | a :: l, i => by
    rw [List.findIdx?_cons, List.findIdx?_cons]
    by_cases hp : p a = true
    · rw [if_pos hp, if_pos hp]
      rfl
    · rw [if_neg hp, if_neg hp, findIdx_shift p l (i + 1)]

theorem findIdx_get_of_nodup : ∀ {l : List String}, l.Nodup →
    ∀ (j : Nat) (hj : j < l.length),
      l.findIdx? (fun s => s == l.get ⟨j, hj⟩) = some j
  | [], _, j, hj => absurd hj (by simp)
  | a :: l, hnd, 0, hj => by
    rw [List.findIdx?_cons, if_pos (by simp)]
  | a :: l, hnd, j + 1, hj => by
    rw [List.nodup_cons] at hnd
    have hget : (a :: l).get ⟨j + 1, hj⟩ = l.get ⟨j, Nat.lt_of_succ_lt_succ hj⟩ := rfl
    rw [List.findIdx?_cons]
    have hne : (a == (a :: l).get ⟨j + 1, hj⟩) = false := by
      rw [hget]
      simp only [beq_eq_false_iff_ne, ne_eq]
      intro he
      exact hnd.1 (he ▸ List.get_mem l j (Nat.lt_of_succ_lt_succ hj))
    rw [if_neg (show ¬((a == (a :: l).get ⟨j + 1, hj⟩) = true) from by
        rw [hne]; exact Bool.false_ne_true), findIdx_shift, hget,
      findIdx_get_of_nodup hnd.2 j (Nat.lt_of_succ_lt_succ hj)]
    rfl

/-- C8: after `finish`, the word stream is strictly ascending in byte order
and duplicate-free, it contains exactly the distinct inserted words, every
distinct word's stable ID is its rank (index) in that lexicographically
sorted stream, and every phrase is renumbered with these stable IDs (then
sorted into the phrase stream).  Hence the IDs form `0..|V|` in lexicographic
order and sorting words by ID equals sorting them by byte-wise string
order. -/
theorem builder_assigns_lex_ids (ps : List (List String)) (elig : String → Bool) :
    List.Chain' (fun a b => strLt a b = true)
      (builderFinish (builderOfList ps) elig).pfx_stream ∧
    (builderFinish (builderOfList ps) elig).pfx_stream.Nodup ∧
    (∀ w, w ∈ (builderFinish (builderOfList ps) elig).pfx_stream ↔ w ∈ ps.flatten) ∧
    builderRenumbered (builderOfList ps) = ps.map (fun p => p.map (fun w =>
      ((builderFinish (builderOfList ps) elig).pfx_stream.findIdx?
        (fun s => s == w)).getD 0)) ∧
    (builderFinish (builderOfList ps) elig).phrase_stream =
      insSort natListLeb (builderRenumbered (builderOfList ps)) := by
  obtain ⟨⟨hs, hv⟩, hmono, hiff, hphr⟩ :=
    builderFold_spec ps ⟨[], []⟩ List.chain'_nil (by simp)
  rw [show List.foldl builderInsert
    { phrases := [], words_to_tmpids := [] } ps = builderOfList ps from rfl]
    at hs hv hmono hiff hphr
  have hstream : (builderFinish (builderOfList ps) elig).pfx_stream =
      (builderOfList ps).words_to_tmpids.map (fun e => e.1) := rfl
  have hpair : List.Pairwise (fun a b => strLt a b = true)
      ((builderOfList ps).words_to_tmpids.map (fun e => e.1)) := by
    haveI : IsTrans String (fun a b => strLt a b = true) :=
      ⟨fun a b c h1 h2 => strLt_trans h1 h2⟩
    exact List.chain'_iff_pairwise.mp hs
  have hnodup : ((builderOfList ps).words_to_tmpids.map (fun e => e.1)).Nodup :=
    hpair.imp (fun h => strLt_ne h)
  have hiff' : ∀ w, (builderOfList ps).words_to_tmpids.lookup w ≠ none ↔
      w ∈ ps.flatten := by
    intro w
    rw [hiff w]
    simp [List.lookup]
  have hmemkeys : ∀ w, w ∈ (builderOfList ps).words_to_tmpids.map (fun e => e.1) ↔
      (builderOfList ps).words_to_tmpids.lookup w ≠ none := by
    intro w
    rw [Ne, lookup_eq_none_iff]
    constructor
    · intro hw h
      obtain ⟨e, he, rfl⟩ := List.mem_map.mp hw
      exact h e he rfl
    · intro h
      by_contra hw
      apply h
      intro e he h1
      exact hw (List.mem_map.mpr ⟨e, he, h1⟩)
  have hrank : ∀ w, (builderOfList ps).words_to_tmpids.lookup w ≠ none →
      (tmpidsToIds (builderOfList ps).words_to_tmpids).getD
        (((builderOfList ps).words_to_tmpids.lookup w).getD 0) 0 =
      (((builderOfList ps).words_to_tmpids.map (fun e => e.1)).findIdx?
        (fun s => s == w)).getD 0 := by
    intro w hne
    cases hl : (builderOfList ps).words_to_tmpids.lookup w with
    | none => exact absurd hl hne
    | some t =>
      have hmem : (w, t) ∈ (builderOfList ps).words_to_tmpids := mem_of_lookup_some hl
      obtain ⟨⟨j, hj⟩, hget⟩ := List.mem_iff_get.mp hmem
      have hvd := tmpidsToIds_spec (builderOfList ps).words_to_tmpids hv j hj
      rw [hget] at hvd
      have hjk : j < ((builderOfList ps).words_to_tmpids.map (fun e => e.1)).length := by
        rw [List.length_map]
        exact hj
      have hkeyget : ((builderOfList ps).words_to_tmpids.map (fun e => e.1)).get
          ⟨j, hjk⟩ = w := by
        simp only [List.get_eq_getElem, List.getElem_map]
        have hg : (builderOfList ps).words_to_tmpids[j] = (w, t) := by
          simpa using hget
        rw [hg]
      have hfind := findIdx_get_of_nodup hnodup j hjk
      rw [hkeyget] at hfind
      rw [hfind]
      simpa using hvd
  refine ⟨hs, hnodup, ?_, ?_, rfl⟩
  · intro w
    rw [hstream, hmemkeys w, hiff' w]
  · rw [builderRenumbered]
    have hphr' : (builderOfList ps).phrases = ps.map (fun p => p.map (fun w =>
        ((builderOfList ps).words_to_tmpids.lookup w).getD 0)) := by
      rw [hphr]
      simp
    rw [hphr', List.map_map]
    apply List.map_congr_left
    intro p hp
    simp only [Function.comp_apply, List.map_map]
    apply List.map_congr_left
    intro w hw
    simp only [Function.comp_apply]
    have hwf : w ∈ ps.flatten := List.mem_flatten.mpr ⟨p, hp, hw⟩
    exact hrank w ((hiff' w).mpr hwf)

/-- Closed instance of `builder_assigns_lex_ids` on a two-phrase insertion
with a shared word. -/
theorem builder_assigns_lex_ids_witness :
    (builderFinish (builderOfList [["b", "a"], ["b"]]) (fun _ => true)).pfx_stream
        = ["a", "b"] ∧
    builderRenumbered (builderOfList [["b", "a"], ["b"]]) = [[1, 0], [1]] ∧
    (builderFinish (builderOfList [["b", "a"], ["b"]]) (fun _ => true)).phrase_stream
        = [[1], [1, 0]] ∧
    (∀ w, w ∈ (builderFinish (builderOfList [["b", "a"], ["b"]]) (fun _ => true)).pfx_stream
        ↔ w ∈ ([["b", "a"], ["b"]] : List (List String)).flatten) :=
  ⟨by decide, by decide, by decide,
    (builder_assigns_lex_ids [["b", "a"], ["b"]] (fun _ => true)).2.2.1⟩

/-! ### Generic list lemmas for the multi-query equivalence -/

theorem lookup_append {κ β : Type} [BEq κ] : ∀ (l1 l2 : List (κ × β)) (k : κ),
    (l1 ++ l2).lookup k = match l1.lookup k with
      | some v => some v
      | none => l2.lookup k
  | [], l2, k => rfl
  | (a, b) :: l1, l2, k => by
    rw [List.cons_append, List.lookup_cons, List.lookup_cons]
    cases h : (k == a) with
    | true => rfl
    | false => exact lookup_append l1 l2 k

theorem insSorted_perm {α : Type} (le : α → α → Bool) (x : α) :
    ∀ (l : List α), (insSorted le x l).Perm (x :: l)
  | [] => List.Perm.refl _
  | y :: ys => by
    rw [insSorted]
    by_cases h : le x y = true
    · rw [if_pos h]
    · rw [if_neg h]
      exact List.Perm.trans (List.Perm.cons y (insSorted_perm le x ys))
        (List.Perm.swap x y ys)

theorem insSort_perm {α : Type} (le : α → α → Bool) :
    ∀ (l : List α), (insSort le l).Perm l
  | [] => List.Perm.refl _
  | x :: xs => by
    rw [insSort, List.foldr_cons]
    exact List.Perm.trans (insSorted_perm le x _)
      (List.Perm.cons x (insSort_perm le xs))

theorem modifyIdx_getD_ne {α : Type} (d : α) : ∀ (l : List α) (j i : Nat) (f : α → α),
    i ≠ j → (modifyIdx l j f).getD i d = l.getD i d
  | [], _, _, _, _ => rfl
  | a :: as, 0, i, f, hne => by
    rw [modifyIdx]
    cases i with
    | zero => exact absurd rfl hne
    | succ i' => rfl
  | a :: as, j + 1, i, f, hne => by
    rw [modifyIdx]
    cases i with
    | zero => rfl
    | succ i' =>
      rw [List.getD_cons_succ, List.getD_cons_succ]
      exact modifyIdx_getD_ne d as j i' f (fun h => hne (by rw [h]))

theorem modifyIdx_getD_eq {α : Type} (d : α) : ∀ (l : List α) (i : Nat) (f : α → α),
    i < l.length → (modifyIdx l i f).getD i d = f (l.getD i d)
  | [], i, f, h => absurd h (by simp)
  | a :: as, 0, f, _ => by
    rw [modifyIdx, List.getD_cons_zero, List.getD_cons_zero]
  | a :: as, i + 1, f, h => by
    rw [modifyIdx, List.getD_cons_succ, List.getD_cons_succ]
    exact modifyIdx_getD_eq d as i f (Nat.lt_of_succ_lt_succ h)

theorem flatMap_single {α β : Type} : ∀ (l : List α) (f : α → List β) (j : α),
    j ∈ l → l.Nodup → (∀ k ∈ l, k ≠ j → f k = []) → l.flatMap f = f j
  | [], _, _, hj, _, _ => absurd hj (List.not_mem_nil _)
  | a :: as, f, j, hj, hnd, hz => by
    rw [List.nodup_cons] at hnd
    rw [List.flatMap_cons]
    rcases List.mem_cons.mp hj with rfl | hj'
    · have hnil : as.flatMap f = [] := by
        rw [List.flatMap_eq_nil_iff]
        intro k hk
        exact hz k (List.mem_cons_of_mem _ hk) (fun h => hnd.1 (h ▸ hk))
      rw [hnil, List.append_nil]
    · rw [hz a (List.mem_cons_self _ _) (fun h => by
          subst h
          exact hnd.1 hj'), List.nil_append]
      exact flatMap_single as f j hj' hnd.2 (fun k hk h => hz k (List.mem_cons_of_mem _ hk) h)

theorem filterMap_congr_mem {α β : Type} {f g : α → Option β} :
    ∀ {l : List α}, (∀ a ∈ l, f a = g a) → l.filterMap f = l.filterMap g
  | [], _ => rfl
  | a :: as, h => by
    rw [List.filterMap_cons, List.filterMap_cons,
      h a (List.mem_cons_self _ _),
      filterMap_congr_mem (fun x hx => h x (List.mem_cons_of_mem _ hx))]

theorem foldl_demux_eq_filterMap {κ : Type} (look : κ → Option Nat)
    (f : Nat → κ → Nat × FuzzyMatchResult) :
    ∀ (ems : List κ) (acc : List (Nat × FuzzyMatchResult)),
      ems.foldl (fun acc e => match look e with
        | some idx => acc ++ [f idx e]
        | none => acc) acc =
      acc ++ ems.filterMap (fun e => (look e).map (fun idx => f idx e))
  | [], acc => by simp
  | e :: ems, acc => by
    rw [List.foldl_cons, List.filterMap_cons]
    cases h : look e with
    | some idx =>
      rw [foldl_demux_eq_filterMap look f ems (acc ++ [f idx e])]
      simp
    | none =>
      rw [foldl_demux_eq_filterMap look f ems acc]
      simp

theorem filterMap_flatMap {α β γ : Type} :
    ∀ (l : List α) (g : α → List β) (h : β → Option γ),
      (l.flatMap g).filterMap h = l.flatMap (fun a => (g a).filterMap h)
  | [], _, _ => rfl
  | a :: as, g, h => by
    rw [List.flatMap_cons, List.flatMap_cons, List.filterMap_append,
      filterMap_flatMap as g h]

/-! ### Lemmas about the combination walks -/

theorem cartesianChoices_length : ∀ {V : List (List QueryWord)} {c : List QueryWord},
    c ∈ cartesianChoices V → c.length = V.length
  | [], c, hc => by
    rw [cartesianChoices] at hc
    rcases List.mem_singleton.mp hc with rfl
    rfl
  | slot :: rest, c, hc => by
    rw [cartesianChoices, List.mem_flatMap] at hc
    obtain ⟨v, _, hc⟩ := hc
    rw [List.mem_map] at hc
    obtain ⟨c', hc', rfl⟩ := hc
    rw [List.length_cons, cartesianChoices_length hc', List.length_cons]

theorem cartesianChoices_nil_of_mem : ∀ {V : List (List QueryWord)},
    [] ∈ V → cartesianChoices V = []
  | [], h => absurd h (List.not_mem_nil _)
  | slot :: rest, h => by
    rw [cartesianChoices]
    rcases List.mem_cons.mp h with rfl | h'
    · rfl
    · rw [cartesianChoices_nil_of_mem h']
      simp

theorem match_combinations_length {phrases : List (List Nat)}
    {V : List (List QueryWord)} {D : Nat} {c : List QueryWord}
    (hc : c ∈ match_combinations phrases V D) : c.length = V.length := by
  rw [match_combinations] at hc
  split at hc
  · exact absurd hc (List.not_mem_nil c)
  · rw [List.mem_dedup] at hc
    exact cartesianChoices_length (List.mem_of_mem_filter hc)

theorem match_combinations_as_pfx_length {phrases : List (List Nat)}
    {V : List (List QueryWord)} {D : Nat} {c : List QueryWord}
    (hc : c ∈ match_combinations_as_pfx phrases V D) : c.length = V.length := by
  rw [match_combinations_as_pfx] at hc
  split at hc
  · exact absurd hc (List.not_mem_nil c)
  · rw [List.mem_dedup] at hc
    exact cartesianChoices_length (List.mem_of_mem_filter hc)

theorem match_combinations_empty_slot {phrases : List (List Nat)}
    {V : List (List QueryWord)} {D : Nat} (h : [] ∈ V) :
    match_combinations phrases V D = [] := by
  rw [match_combinations]
  split
  · rfl
  · rw [cartesianChoices_nil_of_mem h]
    rfl

theorem match_combinations_as_pfx_empty_slot {phrases : List (List Nat)}
    {V : List (List QueryWord)} {D : Nat} (h : [] ∈ V) :
    match_combinations_as_pfx phrases V D = [] := by
  rw [match_combinations_as_pfx]
  split
  · rfl
  · rw [cartesianChoices_nil_of_mem h]
    rfl

theorem mem_snd_of_mem_enum {α : Type} {p : Nat × α} {l : List α}
    (hp : p ∈ l.enum) : p.2 ∈ l := by
  have : p.2 ∈ l.enum.map Prod.snd := List.mem_map.mpr ⟨p, hp, rfl⟩
  rw [List.enum_map_snd] at this
  exact this

theorem reconstructFull_eq_withInput {S : FuzzyPhraseSet} {c : List QueryWord}
    (hc : (allFullIds c).isSome) (input : List String) :
    reconstructFull S c = some (reconstructWithInput S input c) := by
  have hmem := allFullIds_mem_full hc
  have h1 : optionTraverse (fun qw => match qw with
      | QueryWord.full id _ => some (S.word_list.getD id "")
      | QueryWord.pfx _ _ => none) c =
      some (c.map (fun qw => match qw with
        | QueryWord.full id _ => S.word_list.getD id ""
        | QueryWord.pfx _ _ => "")) := by
    apply optionTraverse_eq_some_of_all
    intro a ha
    obtain ⟨id, e, rfl⟩ := hmem a ha
    rfl
  have h2 : optionTraverse (fun qw => match qw with
      | QueryWord.full _ e => some e
      | QueryWord.pfx _ _ => none) c =
      some (c.map (fun qw => match qw with
        | QueryWord.full _ e => e
        | QueryWord.pfx _ _ => 0)) := by
    apply optionTraverse_eq_some_of_all
    intro a ha
    obtain ⟨id, e, rfl⟩ := hmem a ha
    rfl
  have hwi : reconstructWithInput S input c =
      { phrase := c.map (fun qw => match qw with
          | QueryWord.full id _ => S.word_list.getD id ""
          | QueryWord.pfx _ _ => ""),
        edit_distance := choiceDist c } := by
    rw [reconstructWithInput]
    congr 1
    have hstep : c.enum.map (fun p => match p.2 with
        | QueryWord.full id _ => S.word_list.getD id ""
        | QueryWord.pfx _ _ => input.getD p.1 "") =
        c.enum.map (fun p => (fun qw => match qw with
          | QueryWord.full id _ => S.word_list.getD id ""
          | QueryWord.pfx _ _ => "") p.2) := by
      apply List.map_congr_left
      intro p hp
      obtain ⟨id, e, hfull⟩ := hmem p.2 (mem_snd_of_mem_enum hp)
      rw [hfull]
    have hstep2 : c.enum.map (fun p => (fun qw => match qw with
        | QueryWord.full id _ => S.word_list.getD id ""
        | QueryWord.pfx _ _ => "") p.2) =
        (c.enum.map Prod.snd).map (fun qw => match qw with
          | QueryWord.full id _ => S.word_list.getD id ""
          | QueryWord.pfx _ _ => "") := by
      rw [List.map_map]
      rfl
    rw [hstep, hstep2, List.enum_map_snd]
  rw [hwi, reconstructFull, h1, h2]
  rfl

theorem fuzzy_match_some_of_resolve {S : FuzzyPhraseSet} {p : List String}
    {w D : Nat} {V : List (List QueryWord)} (input : List String)
    (hres : resolveNonterminalAll S p (min w 1) = some V) :
    fuzzy_match S p w D =
      some ((match_combinations S.phrases V D).map (reconstructWithInput S input)) := by
  rw [fuzzy_match, hres]
  apply optionTraverse_eq_some_of_all
  intro c hc
  exact reconstructFull_eq_withInput (allFullIds_isSome_of_mem_match_combinations hc) input

theorem fuzzy_match_empty_of_resolve {S : FuzzyPhraseSet} {p : List String}
    {w D : Nat} (hres : resolveNonterminalAll S p (min w 1) = none) :
    fuzzy_match S p w D = some [] := by
  rw [fuzzy_match, hres]

/-! ### The word table of `fuzzy_match_multi` -/

theorem allWordsInsert_inv {S : FuzzyPhraseSet} {ed : Nat}
    {m : List ((String × Bool) × List QueryWord)} {key : String × Bool}
    (hinv : ∀ k v, m.lookup k = some v → v = multiWordVal S ed k) :
    ∀ k v, (allWordsInsert S ed m key).lookup k = some v → v = multiWordVal S ed k := by
  intro k v hv
  rw [allWordsInsert] at hv
  cases hm : m.lookup key with
  | some v0 =>
    rw [hm] at hv
    exact hinv k v hv
  | none =>
    rw [hm, lookup_append] at hv
    cases hk : m.lookup k with
    | some v' =>
      rw [hk] at hv
      cases hv
      exact hinv k v hk
    | none =>
      rw [hk, List.lookup_cons] at hv
      cases hkey : (k == key) with
      | true =>
        rw [hkey] at hv
        cases hv
        rw [eq_of_beq hkey]
      | false =>
        rw [hkey] at hv
        cases hv

theorem allWordsInsert_isSome_self (S : FuzzyPhraseSet) (ed : Nat)
    (m : List ((String × Bool) × List QueryWord)) (key : String × Bool) :
    ((allWordsInsert S ed m key).lookup key).isSome := by
  rw [allWordsInsert]
  cases hm : m.lookup key with
  | some v0 =>
    rw [hm]
    simp
  | none =>
    rw [lookup_append, hm, List.lookup_cons]
    rw [show ((key == key) = true) from by simp]
    simp

theorem allWordsInsert_isSome_mono {S : FuzzyPhraseSet} {ed : Nat}
    {m : List ((String × Bool) × List QueryWord)} {key k : String × Bool}
    (h : (m.lookup k).isSome) : ((allWordsInsert S ed m key).lookup k).isSome := by
  rw [allWordsInsert]
  cases hm : m.lookup key with
  | some v0 => exact h
  | none =>
    rw [lookup_append]
    cases hk : m.lookup k with
    | some v' => simp
    | none =>
      rw [hk] at h
      simp at h

theorem foldlWords_spec (S : FuzzyPhraseSet) (ed : Nat) :
    ∀ (ws : List String) (m : List ((String × Bool) × List QueryWord)),
    (∀ k v, m.lookup k = some v → v = multiWordVal S ed k) →
    ((∀ k v, (ws.foldl (fun acc w => allWordsInsert S ed acc (w, false)) m).lookup k
        = some v → v = multiWordVal S ed k) ∧
      (∀ k, (m.lookup k).isSome →
        ((ws.foldl (fun acc w => allWordsInsert S ed acc (w, false)) m).lookup k).isSome) ∧
      (∀ w ∈ ws,
        ((ws.foldl (fun acc w => allWordsInsert S ed acc (w, false)) m).lookup
          (w, false)).isSome))
  | [], m, hinv => by
    refine ⟨hinv, fun k h => h, ?_⟩
    intro w hw
    exact absurd hw (List.not_mem_nil w)
  | w :: ws, m, hinv => by
    rw [List.foldl_cons]
    obtain ⟨hinv', hmono', hws'⟩ :=
      foldlWords_spec S ed ws (allWordsInsert S ed m (w, false))
        (allWordsInsert_inv hinv)
    refine ⟨hinv', ?_, ?_⟩
    · intro k hk
      exact hmono' k (allWordsInsert_isSome_mono hk)
    · intro w' hw'
      rcases List.mem_cons.mp hw' with rfl | hw''
      · exact hmono' (w', false) (allWordsInsert_isSome_self S ed m (w', false))
      · exact hws' w' hw''

theorem addPhraseWords_spec (S : FuzzyPhraseSet) (ed : Nat)
    (q : List String × Bool) (m : List ((String × Bool) × List QueryWord))
    (hinv : ∀ k v, m.lookup k = some v → v = multiWordVal S ed k)
    (hq : q.2 = true → q.1 ≠ []) :
    ∃ m', addPhraseWords S ed m q = some m' ∧
      (∀ k v, m'.lookup k = some v → v = multiWordVal S ed k) ∧
      (∀ k, (m.lookup k).isSome → (m'.lookup k).isSome) ∧
      (q.2 = false → ∀ w ∈ q.1, (m'.lookup (w, false)).isSome) ∧
      (q.2 = true → (∀ w ∈ q.1.dropLast, (m'.lookup (w, false)).isSome) ∧
        (m'.lookup (q.1.getLast?.getD "", true)).isSome) := by
  obtain ⟨p1, b⟩ := q
  cases b with
  | false =>
    obtain ⟨hinv', hmono', hws'⟩ := foldlWords_spec S ed p1 m hinv
    refine ⟨_, rfl, hinv', hmono', ?_, ?_⟩
    · intro _ w hw
      exact hws' w hw
    · intro h
      cases h
  | true =>
    have hne : p1 ≠ [] := hq rfl
    obtain ⟨hinv1, hmono1, hws1⟩ := foldlWords_spec S ed p1.dropLast m hinv
    have hred : addPhraseWords S ed m (p1, true) =
        some (allWordsInsert S ed
          (p1.dropLast.foldl (fun acc w => allWordsInsert S ed acc (w, false)) m)
          (p1.getLast?.getD "", true)) := by
      rw [addPhraseWords]
      rw [if_pos rfl, if_neg (show ¬((p1, true).1.isEmpty = true) from by
        simp [hne])]
    refine ⟨_, hred, allWordsInsert_inv hinv1, ?_, ?_, ?_⟩
    · intro k hk
      exact allWordsInsert_isSome_mono (hmono1 k hk)
    · intro h
      cases h
    · intro _
      refine ⟨?_, allWordsInsert_isSome_self S ed _ _⟩
      intro w hw
      exact allWordsInsert_isSome_mono (hws1 w hw)

theorem buildAllWords_aux (S : FuzzyPhraseSet) (ed : Nat) :
    ∀ (Q : List (List String × Bool)) (m : List ((String × Bool) × List QueryWord)),
    (∀ k v, m.lookup k = some v → v = multiWordVal S ed k) →
    (∀ q ∈ Q, q.2 = true → q.1 ≠ []) →
    ∃ m', optionFoldl (addPhraseWords S ed) m Q = some m' ∧
      (∀ k v, m'.lookup k = some v → v = multiWordVal S ed k) ∧
      (∀ k, (m.lookup k).isSome → (m'.lookup k).isSome) ∧
      (∀ q ∈ Q,
        (q.2 = false → ∀ w ∈ q.1, (m'.lookup (w, false)).isSome) ∧
        (q.2 = true → (∀ w ∈ q.1.dropLast, (m'.lookup (w, false)).isSome) ∧
          (m'.lookup (q.1.getLast?.getD "", true)).isSome))
  | [], m, hinv, _ => by
    refine ⟨m, rfl, hinv, fun k h => h, ?_⟩
    intro q hq
    exact absurd hq (List.not_mem_nil q)
  | q :: Q', m, hinv, hne => by
    obtain ⟨m1, hm1, hinv1, hmono1, hq1f, hq1t⟩ :=
      addPhraseWords_spec S ed q m hinv (hne q (List.mem_cons_self _ _))
    rw [optionFoldl, hm1]
    obtain ⟨m', hm', hinv', hmono', hpres'⟩ :=
      buildAllWords_aux S ed Q' m1 hinv1
        (fun q' hq' => hne q' (List.mem_cons_of_mem _ hq'))
    refine ⟨m', hm', hinv', ?_, ?_⟩
    · intro k hk
      exact hmono' k (hmono1 k hk)
    · intro q' hq'
      rcases List.mem_cons.mp hq' with rfl | hq''
      · constructor
        · intro h2 w hw
          exact hmono' _ (hq1f h2 w hw)
        · intro h2
          obtain ⟨ha, hb⟩ := hq1t h2
          exact ⟨fun w hw => hmono' _ (ha w hw), hmono' _ hb⟩
      · exact hpres' q' hq''

/-! ### The prefix-cluster grouping -/

theorem groupPhrases_flatten : ∀ (l : List IndexedPhrase), (groupPhrases l).flatten = l
  | [] => rfl
  | [x] => rfl
  | x :: y :: rest => by
    rw [groupPhrases]
    by_cases h : groupDone x y = true
    · rw [if_pos h, List.flatten_cons, groupPhrases_flatten (y :: rest)]
      rfl
    · rw [if_neg h]
      cases hg : groupPhrases (y :: rest) with
      | nil =>
        exfalso
        have hfl := groupPhrases_flatten (y :: rest)
        rw [hg] at hfl
        cases hfl
      | cons g gs =>
        have hfl := groupPhrases_flatten (y :: rest)
        rw [hg, List.flatten_cons] at hfl
        rw [List.flatten_cons, List.cons_append, hfl]

theorem groupPhrases_props : ∀ (l : List IndexedPhrase), ∀ g ∈ groupPhrases l,
    g ≠ [] ∧ List.Chain' (fun a b => groupDone a b = false) g
  | [], g, hg => absurd hg (List.not_mem_nil _)
  | [x], g, hg => by
    rcases List.mem_singleton.mp hg with rfl
    exact ⟨by simp, List.chain'_singleton x⟩
  | x :: y :: rest, g, hg => by
    rw [groupPhrases] at hg
    by_cases h : groupDone x y = true
    · rw [if_pos h] at hg
      rcases List.mem_cons.mp hg with rfl | hg'
      · exact ⟨by simp, List.chain'_singleton x⟩
      · exact groupPhrases_props (y :: rest) g hg'
    · rw [if_neg h] at hg
      cases hgp : groupPhrases (y :: rest) with
      | nil =>
        rw [hgp] at hg
        rcases List.mem_singleton.mp hg with rfl
        exact ⟨by simp, List.chain'_singleton x⟩
      | cons g0 gs =>
        rw [hgp] at hg
        rcases List.mem_cons.mp hg with rfl | hg'
        · have hprops := groupPhrases_props (y :: rest) g0
            (by rw [hgp]; exact List.mem_cons_self _ _)
          have hfl := groupPhrases_flatten (y :: rest)
          rw [hgp, List.flatten_cons] at hfl
          have hhead : g0.head? = some y := by
            cases g0 with
            | nil => exact absurd rfl hprops.1
            | cons a g0' =>
              rw [List.cons_append] at hfl
              cases hfl
              rfl
          refine ⟨by simp, ?_⟩
          rw [List.chain'_cons']
          refine ⟨?_, hprops.2⟩
          intro z hz
          rw [hhead] at hz
          cases hz
          simpa using h
        · exact groupPhrases_props (y :: rest) g
            (by rw [hgp]; exact List.mem_cons_of_mem _ hg')

theorem groupDone_false_iff {x y : IndexedPhrase} :
    groupDone x y = false ↔
      (x.2.1 = false ∧ x.1.length < y.1.length ∧ y.1.take x.1.length = x.1) := by
  rw [groupDone]
  simp only [Bool.or_eq_false_iff, decide_eq_false_iff_not, Bool.not_eq_false',
    beq_iff_eq, Nat.not_le]
  constructor
  · rintro ⟨⟨h1, h2⟩, h3⟩
    exact ⟨h1, h2, h3⟩
  · rintro ⟨h1, h2, h3⟩
    exact ⟨⟨h1, h2⟩, h3⟩

theorem chain_groupDone_last :
    ∀ (g : List IndexedPhrase),
      List.Chain' (fun a b => groupDone a b = false) g →
      ∀ (lg : IndexedPhrase), g.getLast? = some lg →
      ∀ x ∈ g, x = lg ∨
        (x.2.1 = false ∧ x.1.length < lg.1.length ∧ lg.1.take x.1.length = x.1)
  | [], _, lg, hl, x, hx => absurd hx (List.not_mem_nil x)
  | [a], _, lg, hl, x, hx => by
    rcases List.mem_singleton.mp hx with rfl
    cases hl
    exact Or.inl rfl
  | a :: b :: rest, hch, lg, hl, x, hx => by
    rw [List.chain'_cons] at hch
    have hab := groupDone_false_iff.mp hch.1
    rw [List.getLast?_cons_cons] at hl
    rcases List.mem_cons.mp hx with rfl | hx'
    · have hbl := chain_groupDone_last (b :: rest) hch.2 lg hl b
        (List.mem_cons_self _ _)
      rcases hbl with rfl | ⟨_, hlen, htake⟩
      · exact Or.inr ⟨hab.1, hab.2.1, hab.2.2⟩
      · refine Or.inr ⟨hab.1, lt_trans hab.2.1 hlen, ?_⟩
        have : lg.1.take x.1.length = (lg.1.take b.1.length).take x.1.length := by
          rw [List.take_take, Nat.min_eq_left (Nat.le_of_lt hab.2.1)]
        rw [this, htake, hab.2.2]
    · exact chain_groupDone_last (b :: rest) hch.2 lg hl x hx'

theorem chain_groupDone_lengths (g : List IndexedPhrase)
    (hch : List.Chain' (fun a b => groupDone a b = false) g) :
    List.Pairwise (fun a b : IndexedPhrase => a.1.length < b.1.length) g := by
  haveI : IsTrans IndexedPhrase (fun a b => a.1.length < b.1.length) :=
    ⟨fun a b c h1 h2 => lt_trans h1 h2⟩
  rw [← List.chain'_iff_pairwise]
  exact hch.imp (fun a b hab => (groupDone_false_iff.mp hab).2.1)

/-! ### Single-query results as combination blocks over the word table -/

theorem map_eq_dropLast_append {α β : Type} (f : α → β) (d : α) :
    ∀ (l : List α), l ≠ [] →
      l.map f = l.dropLast.map f ++ [f (l.getLast?.getD d)] := by
  intro l hl
  conv_lhs => rw [← List.dropLast_append_getLast hl]
  rw [List.map_append, List.getLast?_eq_getLast l hl]
  rfl

theorem resolveAll_eq_mwv {S : FuzzyPhraseSet} {p : List String}
    (hall : ∀ w ∈ p, (get_nonterminal_word_possibilities S w 1).isSome) :
    resolveNonterminalAll S p 1 =
      some (p.map (fun w => multiWordVal S 1 (w, false))) := by
  rw [resolveNonterminalAll]
  apply optionTraverse_eq_some_of_all
  intro w hw
  cases h : get_nonterminal_word_possibilities S w 1 with
  | none =>
    exfalso
    have hs := hall w hw
    rw [h] at hs
    simp at hs
  | some v =>
    rw [multiWordVal]
    simp [h]

theorem fuzzy_match_getD_eq (S : FuzzyPhraseSet) (p : List String) (D : Nat) :
    (fuzzy_match S p 1 D).getD [] =
      (match_combinations S.phrases
        (p.map (fun w => multiWordVal S 1 (w, false))) D).map
        (reconstructWithInput S p) := by
  by_cases hall : ∀ w ∈ p, (get_nonterminal_word_possibilities S w 1).isSome
  · have hres : resolveNonterminalAll S p (min 1 1) =
        some (p.map (fun w => multiWordVal S 1 (w, false))) := resolveAll_eq_mwv hall
    rw [fuzzy_match_some_of_resolve p hres]
    rfl
  · push_neg at hall
    obtain ⟨w, hw, hwnone⟩ := hall
    have hwn : get_nonterminal_word_possibilities S w 1 = none := by
      cases h : get_nonterminal_word_possibilities S w 1 with
      | none => rfl
      | some v =>
        exfalso
        apply hwnone
        rw [h]
        rfl
    have hres : resolveNonterminalAll S p (min 1 1) = none := by
      rw [resolveNonterminalAll]
      exact optionTraverse_eq_none hw hwn
    rw [fuzzy_match_empty_of_resolve hres]
    have hmem : ([] : List QueryWord) ∈ p.map (fun w => multiWordVal S 1 (w, false)) := by
      rw [List.mem_map]
      exact ⟨w, hw, by rw [multiWordVal]; simp [hwn]⟩
    rw [match_combinations_empty_slot hmem]
    rfl

theorem fuzzy_match_pfx_unfold (S : FuzzyPhraseSet) (p : List String) (w D : Nat) :
    fuzzy_match_pfx S p w D =
      if p.isEmpty then []
      else
        match resolveNonterminalAll S p.dropLast (min w 1) with
        | none => []
        | some Vinit =>
          match get_terminal_word_possibilities S (p.getLast?.getD "") (min w 1) with
          | none => []
          | some lastV =>
            (match_combinations_as_pfx S.phrases (Vinit ++ [lastV]) D).map
              (reconstructWithInput S p) := rfl

theorem fuzzy_match_pfx_eq_block (S : FuzzyPhraseSet) (p : List String) (D : Nat)
    (hp : p ≠ []) :
    fuzzy_match_pfx S p 1 D =
      (match_combinations_as_pfx S.phrases
        (p.dropLast.map (fun w => multiWordVal S 1 (w, false)) ++
          [multiWordVal S 1 (p.getLast?.getD "", true)]) D).map
        (reconstructWithInput S p) := by
  rw [fuzzy_match_pfx_unfold, if_neg (by simp [hp]),
    show (min 1 1 : Nat) = 1 from rfl]
  by_cases hall : ∀ w ∈ p.dropLast, (get_nonterminal_word_possibilities S w 1).isSome
  · rw [resolveAll_eq_mwv hall]
    cases hterm : get_terminal_word_possibilities S (p.getLast?.getD "") 1 with
    | some lastV =>
      have hlast : multiWordVal S 1 (p.getLast?.getD "", true) = lastV := by
        rw [multiWordVal]
        simp [hterm]
      rw [hlast]
    | none =>
      have hmem : ([] : List QueryWord) ∈
          p.dropLast.map (fun w => multiWordVal S 1 (w, false)) ++
            [multiWordVal S 1 (p.getLast?.getD "", true)] := by
        rw [List.mem_append]
        refine Or.inr ?_
        rw [show multiWordVal S 1 (p.getLast?.getD "", true) = [] from by
          rw [multiWordVal]; simp [hterm]]
        exact List.mem_singleton.mpr rfl
      rw [match_combinations_as_pfx_empty_slot hmem]
      rfl
  · push_neg at hall
    obtain ⟨w', hw, hwnone⟩ := hall
    have hwn : get_nonterminal_word_possibilities S w' 1 = none := by
      cases h : get_nonterminal_word_possibilities S w' 1 with
      | none => rfl
      | some v =>
        exfalso
        apply hwnone
        rw [h]
        rfl
    rw [show resolveNonterminalAll S p.dropLast 1 = none from by
      rw [resolveNonterminalAll]; exact optionTraverse_eq_none hw hwn]
    have hmem : ([] : List QueryWord) ∈
        p.dropLast.map (fun w => multiWordVal S 1 (w, false)) ++
          [multiWordVal S 1 (p.getLast?.getD "", true)] := by
      rw [List.mem_append]
      refine Or.inl ?_
      rw [List.mem_map]
      exact ⟨w', hw, by rw [multiWordVal]; simp [hwn]⟩
    rw [match_combinations_as_pfx_empty_slot hmem]
    rfl

theorem lookup_of_unique {κ : Type} [BEq κ] [LawfulBEq κ] :
    ∀ (l : List (κ × Nat)) (key : κ) (idx : Nat),
      (key, idx) ∈ l → (∀ e ∈ l, e.1 = key → e = (key, idx)) →
      l.lookup key = some idx
  | [], key, idx, hmem, _ => absurd hmem (List.not_mem_nil _)
  | (k, v) :: rest, key, idx, hmem, huniq => by
    rw [List.lookup_cons]
    cases hk : (key == k) with
    | true =>
      have hkv : (k, v) = (key, idx) :=
        huniq (k, v) (List.mem_cons_self _ _) (eq_of_beq hk).symm
      rw [Prod.ext_iff] at hkv
      have h2 : v = idx := hkv.2
      exact congrArg some h2
    | false =>
      rcases List.mem_cons.mp hmem with he | hmem'
      · exfalso
        have : key = k := by
          have := congrArg Prod.fst he.symm
          exact this.symm
        rw [this] at hk
        simp at hk
      · exact lookup_of_unique rest key idx hmem'
          (fun e he h1 => huniq e (List.mem_cons_of_mem _ he) h1)

theorem pairwise_lt_len_inj {R : IndexedPhrase → IndexedPhrase → Prop}
    (hR : ∀ a b, R a b → a.1.length < b.1.length) :
    ∀ {g : List IndexedPhrase}, List.Pairwise R g →
      ∀ x ∈ g, ∀ y ∈ g, x.1.length = y.1.length → x = y
  | [], _, x, hx, _, _, _ => absurd hx (List.not_mem_nil x)
  | a :: l, hpw, x, hx, y, hy, hlen => by
    rw [List.pairwise_cons] at hpw
    rcases List.mem_cons.mp hx with rfl | hx'
    · rcases List.mem_cons.mp hy with rfl | hy'
      · rfl
      · exact absurd hlen (Nat.ne_of_lt (hR _ _ (hpw.1 y hy')))
    · rcases List.mem_cons.mp hy with rfl | hy'
      · exact absurd hlen.symm (Nat.ne_of_lt (hR _ _ (hpw.1 x hx')))
      · exact pairwise_lt_len_inj hR hpw.2 x hx' y hy' hlen

theorem lookup_mem {κ β : Type} [BEq κ] [LawfulBEq κ] :
    ∀ {l : List (κ × β)} {k : κ} {v : β}, l.lookup k = some v → (k, v) ∈ l
  | [], _, _, h => by simp [List.lookup] at h
  | (a, b) :: rest, k, v, h => by
    rw [List.lookup_cons] at h
    cases ha : (k == a) with
    | true =>
      rw [ha] at h
      cases h
      rw [eq_of_beq ha]
      exact List.mem_cons_self _ _
    | false =>
      rw [ha] at h
      exact List.mem_cons_of_mem _ (lookup_mem h)

theorem filter_flatMap {α β : Type} (p : β → Bool) :
    ∀ (l : List α) (f : α → List β),
      (l.flatMap f).filter p = l.flatMap (fun a => (f a).filter p)
  | [], _ => rfl
  | a :: as, f => by
    rw [List.flatMap_cons, List.flatMap_cons, List.filter_append,
      filter_flatMap p as f]

theorem filterMap_some_eq_map {α β : Type} (f : α → β) :
    ∀ (l : List α), l.filterMap (fun a => some (f a)) = l.map f
  | [] => rfl
  | a :: as => by
    rw [List.filterMap_cons, List.map_cons]
    simp only []
    rw [filterMap_some_eq_map f as]

theorem filterMap_none_eq_nil {α β : Type} :
    ∀ (l : List α), l.filterMap (fun _ => (none : Option β)) = []
  | [] => rfl
  | a :: as => by
    rw [List.filterMap_cons]
    simp only []
    exact filterMap_none_eq_nil as

theorem clusterFold_eq_filterMap (S : FuzzyPhraseSet) (Q : List (List String × Bool))
    (lm : List ((Nat × Bool) × Nat)) :
    ∀ (ems : List (List QueryWord × Bool)) (acc : List (Nat × FuzzyMatchResult)),
      ems.foldl (fun acc e => match lmLookup lm (e.1.length, e.2) with
        | some idx => acc ++ [(idx, reconstructWithInput S (Q.getD idx ([], false)).1 e.1)]
        | none => acc) acc =
      acc ++ ems.filterMap (fun e => (lmLookup lm (e.1.length, e.2)).map
        (fun idx => (idx, reconstructWithInput S (Q.getD idx ([], false)).1 e.1)))
  | [], acc => by simp
  | e :: ems, acc => by
    rw [List.foldl_cons, List.filterMap_cons]
    cases h : lmLookup lm (e.1.length, e.2) with
    | some idx =>
      rw [clusterFold_eq_filterMap S Q lm ems (acc ++ _)]
      simp
    | none =>
      rw [clusterFold_eq_filterMap S Q lm ems acc]
      rfl

theorem clusterV_eq {S : FuzzyPhraseSet} {m : List ((String × Bool) × List QueryWord)}
    {lg : IndexedPhrase}
    (hinv : ∀ k v, m.lookup k = some v → v = multiWordVal S 1 k)
    (hinit : ∀ w ∈ lg.1.dropLast, (m.lookup (w, false)).isSome)
    (hlast : (m.lookup (lg.1.getLast?.getD "", lg.2.1)).isSome) :
    clusterV m lg = some
      (lg.1.dropLast.map (fun w => multiWordVal S 1 (w, false)) ++
        [multiWordVal S 1 (lg.1.getLast?.getD "", lg.2.1)]) := by
  rw [clusterV]
  have h1 : optionTraverse (fun w => m.lookup (w, false)) lg.1.dropLast =
      some (lg.1.dropLast.map (fun w => multiWordVal S 1 (w, false))) := by
    apply optionTraverse_eq_some_of_all
    intro w hw
    cases h : m.lookup (w, false) with
    | none =>
      exfalso
      have hs := hinit w hw
      rw [h] at hs
      simp at hs
    | some v => rw [hinv (w, false) v h]
  rw [h1]
  cases h2 : m.lookup (lg.1.getLast?.getD "", lg.2.1) with
  | none =>
    exfalso
    rw [h2] at hlast
    simp at hlast
  | some v =>
    rw [hinv _ v h2]

theorem flatMap_congr_mem {α β : Type} {f g : α → List β} :
    ∀ {l : List α}, (∀ a ∈ l, f a = g a) → l.flatMap f = l.flatMap g
  | [], _ => rfl
  | a :: as, h => by
    rw [List.flatMap_cons, List.flatMap_cons, h a (List.mem_cons_self _ _),
      flatMap_congr_mem (fun x hx => h x (List.mem_cons_of_mem _ hx))]

theorem block_filtered (S : FuzzyPhraseSet) (Q : List (List String × Bool))
    (lm : List ((Nat × Bool) × Nat)) (mcL : List (List QueryWord)) (φ : Bool)
    (K : Nat) (hlen : ∀ c ∈ mcL, c.length = K) (i₀ : Nat) :
    ((((mcL.map (fun c => (c, φ))).filterMap
        (fun e => (lmLookup lm (e.1.length, e.2)).map
          (fun idx => (idx, reconstructWithInput S (Q.getD idx ([], false)).1 e.1)))).filter
      (fun e => e.1 == i₀)).map (fun e => e.2)) =
    (if lmLookup lm (K, φ) = some i₀ then
      mcL.map (reconstructWithInput S (Q.getD i₀ ([], false)).1) else []) := by
  rw [List.filterMap_map]
  have hcg : mcL.filterMap ((fun e => (lmLookup lm (e.1.length, e.2)).map
      (fun idx => (idx, reconstructWithInput S (Q.getD idx ([], false)).1 e.1))) ∘
        (fun c => (c, φ))) =
      mcL.filterMap (fun c => (lmLookup lm (K, φ)).map
        (fun idx => (idx, reconstructWithInput S (Q.getD idx ([], false)).1 c))) := by
    apply filterMap_congr_mem
    intro c hc
    simp only [Function.comp_apply]
    rw [hlen c hc]
  rw [hcg]
  cases hlk : lmLookup lm (K, φ) with
  | none =>
    rw [if_neg (by simp)]
    rw [show (fun c => Option.map (fun idx =>
        (idx, reconstructWithInput S (Q.getD idx ([], false)).1 c)) none) =
      (fun _ : List QueryWord => (none : Option (Nat × FuzzyMatchResult))) from rfl]
    rw [filterMap_none_eq_nil]
    rfl
  | some idx =>
    rw [show (fun c => Option.map (fun idx =>
        (idx, reconstructWithInput S (Q.getD idx ([], false)).1 c)) (some idx)) =
      (fun c : List QueryWord =>
        some (idx, reconstructWithInput S (Q.getD idx ([], false)).1 c)) from rfl]
    rw [filterMap_some_eq_map]
    by_cases hii : idx = i₀
    · subst hii
      rw [if_pos rfl]
      rw [List.filter_eq_self.mpr (by
        intro a ha
        rw [List.mem_map] at ha
        obtain ⟨c, _, rfl⟩ := ha
        simp)]
      rw [List.map_map]
      rfl
    · rw [if_neg (by intro h; cases h; exact hii rfl)]
      rw [List.filter_eq_nil_iff.mpr (by
        intro a ha
        rw [List.mem_map] at ha
        obtain ⟨c, _, rfl⟩ := ha
        simp [hii])]
      rfl

theorem demux_filter_spec (S : FuzzyPhraseSet) (Q : List (List String × Bool)) (D : Nat)
    (V : List (List QueryWord)) (n : Nat) (hVlen : V.length = n)
    (wf : Bool) (lm : List ((Nat × Bool) × Nat)) (i₀ k : Nat) (b : Bool)
    (hkn : k ≤ n)
    (hkey : 1 ≤ k → lmLookup lm (k, b) = some i₀)
    (hother : ∀ K φ idx, lmLookup lm (K, φ) = some idx → idx = i₀ → (K = k ∧ φ = b))
    (halign1 : k < n → b = false)
    (halign2 : k = n → b = wf) :
    ((((match_combinations_as_windows S.phrases V D wf).filterMap
        (fun e => (lmLookup lm (e.1.length, e.2)).map
          (fun idx => (idx, reconstructWithInput S (Q.getD idx ([], false)).1 e.1)))).filter
      (fun e => e.1 == i₀)).map (fun e => e.2)) =
    (if 1 ≤ k then
      (if b then (match_combinations_as_pfx S.phrases V D).map
          (reconstructWithInput S (Q.getD i₀ ([], false)).1)
       else (match_combinations S.phrases (V.take k) D).map
          (reconstructWithInput S (Q.getD i₀ ([], false)).1))
     else []) := by
  rw [match_combinations_as_windows, filterMap_flatMap, filter_flatMap, List.map_flatMap,
    hVlen]
  have hFB : ∀ j ∈ List.range n,
      ((((if j + 1 < n || !wf then
          (match_combinations S.phrases (V.take (j + 1)) D).map (fun c => (c, false))
        else
          (match_combinations_as_pfx S.phrases V D).map (fun c => (c, true))).filterMap
          (fun e => (lmLookup lm (e.1.length, e.2)).map
            (fun idx => (idx, reconstructWithInput S (Q.getD idx ([], false)).1 e.1)))).filter
        (fun e => e.1 == i₀)).map (fun e => e.2)) =
      (if j + 1 < n || !wf then
        (if lmLookup lm (j + 1, false) = some i₀ then
          (match_combinations S.phrases (V.take (j + 1)) D).map
            (reconstructWithInput S (Q.getD i₀ ([], false)).1) else [])
      else
        (if lmLookup lm (n, true) = some i₀ then
          (match_combinations_as_pfx S.phrases V D).map
            (reconstructWithInput S (Q.getD i₀ ([], false)).1) else [])) := by
    intro j hj
    rw [List.mem_range] at hj
    by_cases hcond : (j + 1 < n || !wf) = true
    · rw [if_pos hcond, if_pos hcond]
      apply block_filtered
      intro c hc
      rw [match_combinations_length hc, List.length_take, hVlen,
        Nat.min_eq_left (Nat.succ_le_of_lt hj)]
    · rw [if_neg hcond, if_neg hcond]
      have := block_filtered S Q lm (match_combinations_as_pfx S.phrases V D) true n
        (fun c hc => by rw [match_combinations_as_pfx_length hc, hVlen]) i₀
      exact this
  rw [flatMap_congr_mem hFB]
  by_cases hk1 : 1 ≤ k
  · rw [if_pos hk1]
    have hj0mem : k - 1 ∈ List.range n := by
      rw [List.mem_range]
      exact lt_of_lt_of_le (Nat.sub_lt hk1 Nat.one_pos) hkn
    have hj0succ : k - 1 + 1 = k := Nat.succ_pred_eq_of_pos hk1
    rw [flatMap_single (List.range n) _ (k - 1) hj0mem (List.nodup_range n) ?_]
    · by_cases hkltn : k < n
      · have hb : b = false := halign1 hkltn
        have hcond : (decide (k - 1 + 1 < n) || !wf) = true := by
          rw [hj0succ]
          simp [hkltn]
        rw [if_pos hcond, hj0succ]
        rw [hb] at hkey
        rw [if_pos (hkey hk1)]
        rw [hb]
        simp
      · have hkeqn : k = n := Nat.le_antisymm hkn (Nat.not_lt.mp hkltn)
        have hbwf : b = wf := halign2 hkeqn
        cases hwf : wf with
        | false =>
          have hcond : ((decide (k - 1 + 1 < n) || !false) = true) := by simp
          rw [if_pos hcond, hj0succ]
          rw [hbwf, hwf] at hkey
          rw [if_pos (hkey hk1)]
          rw [hbwf, hwf]
          simp
        | true =>
          have hcond : ¬((decide (k - 1 + 1 < n) || !true) = true) := by
            rw [hj0succ, hkeqn]
            simp
          rw [if_neg hcond]
          rw [hbwf, hwf] at hkey
          have hkeyn : lmLookup lm (n, true) = some i₀ := by
            rw [← hkeqn]
            exact hkey hk1
          rw [if_pos hkeyn, hbwf, hwf]
          simp
    · intro j hjr hjne
      rw [List.mem_range] at hjr
      by_cases hcond : (j + 1 < n || !wf) = true
      · rw [if_pos hcond]
        cases hlk : lmLookup lm (j + 1, false) with
        | none => rw [if_neg (by simp)]
        | some idx =>
          by_cases hidx : idx = i₀
          · exfalso
            have := (hother (j + 1) false idx hlk hidx).1
            apply hjne
            rw [← this]
            rfl
          · rw [if_neg (by intro h; cases h; exact hidx rfl)]
      · rw [if_neg hcond]
        cases hlk : lmLookup lm (n, true) with
        | none => rw [if_neg (by simp)]
        | some idx =>
          by_cases hidx : idx = i₀
          · exfalso
            have h1 := hother n true idx hlk hidx
            have hj1 : ¬(j + 1 < n) := by
              intro hc
              apply hcond
              simp [hc]
            have hjn : j + 1 = n := Nat.le_antisymm (Nat.succ_le_of_lt hjr)
              (Nat.not_lt.mp hj1)
            apply hjne
            rw [h1.1] at hjn
            have hj2 : j + 1 = k - 1 + 1 := by rw [hjn, hj0succ]
            exact Nat.succ_injective hj2
          · rw [if_neg (by intro h; cases h; exact hidx rfl)]
  · rw [if_neg hk1]
    rw [List.flatMap_eq_nil_iff]
    intro j hjr
    rw [List.mem_range] at hjr
    by_cases hcond : (j + 1 < n || !wf) = true
    · rw [if_pos hcond]
      cases hlk : lmLookup lm (j + 1, false) with
      | none => rw [if_neg (by simp)]
      | some idx =>
        by_cases hidx : idx = i₀
        · exfalso
          have := (hother (j + 1) false idx hlk hidx).1
          exact hk1 (this ▸ Nat.succ_le_succ (Nat.zero_le j))
        · rw [if_neg (by intro h; cases h; exact hidx rfl)]
    · rw [if_neg hcond]
      cases hlk : lmLookup lm (n, true) with
      | none => rw [if_neg (by simp)]
      | some idx =>
        by_cases hidx : idx = i₀
        · exfalso
          have h1 := hother n true idx hlk hidx
          have hn0 : 1 ≤ n := Nat.succ_le_of_lt (Nat.lt_of_le_of_lt (Nat.zero_le j) hjr)
          exact hk1 (h1.1 ▸ hn0)
        · rw [if_neg (by intro h; cases h; exact hidx rfl)]


theorem clusterContribs_spec (S : FuzzyPhraseSet) (Q : List (List String × Bool)) (D : Nat)
    (m : List ((String × Bool) × List QueryWord))
    (hinv : ∀ k v, m.lookup k = some v → v = multiWordVal S 1 k)
    (g : List IndexedPhrase)
    (hch : List.Chain' (fun a b => groupDone a b = false) g)
    (lg : IndexedPhrase) (hlast : g.getLast? = some lg)
    (hQ : ∀ x ∈ g, Q.getD x.2.2 ([], false) = (x.1, x.2.1))
    (hpres1 : lg.2.1 = true → (∀ w ∈ lg.1.dropLast, (m.lookup (w, false)).isSome) ∧
        (m.lookup (lg.1.getLast?.getD "", true)).isSome)
    (hpres2 : lg.2.1 = false → ∀ w ∈ lg.1, (m.lookup (w, false)).isSome)
    (hne' : lg.2.1 = true → lg.1 ≠ []) :
    ∃ contribs, clusterContribs S Q D m g = some contribs ∧
      (∀ e ∈ contribs, ∃ x ∈ g, e.1 = x.2.2) ∧
      ∀ xi ∈ g, (∀ x ∈ g, x.2.2 = xi.2.2 → x = xi) →
        (contribs.filter (fun e => e.1 == xi.2.2)).map (fun e => e.2) =
          (if xi.2.1 = true then fuzzy_match_pfx S xi.1 1 D
           else (fuzzy_match S xi.1 1 D).getD []) := by
  have hgne : g ≠ [] := by
    intro h
    rw [h] at hlast
    cases hlast
  have hmem := chain_groupDone_last g hch lg hlast
  have hpw := chain_groupDone_lengths g hch
  by_cases hn : lg.1.length = 0
  · have hlgnil : lg.1 = [] := List.length_eq_zero.mp hn
    refine ⟨[], ?_, ?_, ?_⟩
    · simp only [clusterContribs, hlast]
      rw [if_pos hn]
    · intro e he
      exact absurd he (List.not_mem_nil e)
    · intro xi hxi hidn
      have hxieq : xi = lg := by
        rcases hmem xi hxi with heq | ⟨_, hlen, _⟩
        · exact heq
        · rw [hn] at hlen
          exact absurd hlen (Nat.not_lt_zero _)
      have hflag : xi.2.1 = false := by
        cases hfl : xi.2.1 with
        | false => rfl
        | true =>
          exfalso
          exact hne' (by rw [← hxieq]; exact hfl) hlgnil
      simp only [List.filter_nil, List.map_nil]
      rw [hflag, if_neg (by simp), hxieq, hlgnil, fuzzy_match_getD_eq]
      simp [match_combinations]
  · have hlgne : lg.1 ≠ [] := by
      intro h
      exact hn (by rw [h, List.length_nil])
    have hinit : ∀ w ∈ lg.1.dropLast, (m.lookup (w, false)).isSome := by
      cases hfl : lg.2.1 with
      | true => exact (hpres1 hfl).1
      | false => exact fun w hw => hpres2 hfl w (List.mem_of_mem_dropLast hw)
    have hlastkey : (m.lookup (lg.1.getLast?.getD "", lg.2.1)).isSome := by
      cases hfl : lg.2.1 with
      | true => exact (hpres1 hfl).2
      | false =>
        have hlmem : lg.1.getLast?.getD "" ∈ lg.1 := by
          rw [List.getLast?_eq_getLast lg.1 hlgne, Option.getD_some]
          exact List.getLast_mem hlgne
        exact hpres2 hfl _ hlmem
    have hV := clusterV_eq (S := S) hinv hinit hlastkey
    have hVlen : (lg.1.dropLast.map (fun w => multiWordVal S 1 (w, false)) ++
        [multiWordVal S 1 (lg.1.getLast?.getD "", lg.2.1)]).length = lg.1.length := by
      rw [List.length_append, List.length_map, List.length_dropLast, List.length_singleton]
      omega
    have hcc : clusterContribs S Q D m g = some
        ((match_combinations_as_windows S.phrases
            (lg.1.dropLast.map (fun w => multiWordVal S 1 (w, false)) ++
              [multiWordVal S 1 (lg.1.getLast?.getD "", lg.2.1)]) D lg.2.1).filterMap
          (fun e => (lmLookup (lengthMapOf g) (e.1.length, e.2)).map
            (fun idx => (idx, reconstructWithInput S (Q.getD idx ([], false)).1 e.1)))) := by
      simp only [clusterContribs, hlast]
      rw [if_neg hn, hV]
      exact congrArg some ((clusterFold_eq_filterMap S Q (lengthMapOf g)
        (match_combinations_as_windows S.phrases
          (lg.1.dropLast.map (fun w => multiWordVal S 1 (w, false)) ++
            [multiWordVal S 1 (lg.1.getLast?.getD "", lg.2.1)]) D lg.2.1) []).trans
        (List.nil_append _))
    refine ⟨_, hcc, ?_, ?_⟩
    · intro e he
      rw [List.mem_filterMap] at he
      obtain ⟨a, ha, hfa⟩ := he
      cases hlk : lmLookup (lengthMapOf g) (a.1.length, a.2) with
      | none =>
        rw [hlk] at hfa
        cases hfa
      | some idx =>
        rw [hlk] at hfa
        simp only [Option.map_some', Option.some.injEq] at hfa
        rw [lmLookup] at hlk
        have hm := lookup_mem hlk
        rw [List.mem_reverse, lengthMapOf, List.mem_map] at hm
        obtain ⟨y, hy, hye⟩ := hm
        refine ⟨y, hy, ?_⟩
        rw [← hfa]
        exact (congrArg Prod.snd hye).symm
    · intro xi hxi hidn
      have hk_le : xi.1.length ≤ lg.1.length := by
        rcases hmem xi hxi with heq | ⟨_, hlt, _⟩
        · rw [heq]
        · exact le_of_lt hlt
      have hkey : 1 ≤ xi.1.length →
          lmLookup (lengthMapOf g) (xi.1.length, xi.2.1) = some xi.2.2 := by
        intro _
        rw [lmLookup]
        apply lookup_of_unique
        · rw [List.mem_reverse, lengthMapOf, List.mem_map]
          exact ⟨xi, hxi, rfl⟩
        · intro e he h1
          rw [List.mem_reverse, lengthMapOf, List.mem_map] at he
          obtain ⟨y, hy, hye⟩ := he
          rw [← hye] at h1 ⊢
          have hylen : y.1.length = xi.1.length := congrArg Prod.fst h1
          have hyx : y = xi := pairwise_lt_len_inj (fun a b h => h) hpw y hy xi hxi hylen
          rw [hyx]
      have hother : ∀ K φ idx, lmLookup (lengthMapOf g) (K, φ) = some idx → idx = xi.2.2 →
          (K = xi.1.length ∧ φ = xi.2.1) := by
        intro K φ idx hlk hidx
        rw [lmLookup] at hlk
        have hm := lookup_mem hlk
        rw [List.mem_reverse, lengthMapOf, List.mem_map] at hm
        obtain ⟨y, hy, hye⟩ := hm
        have hy2 : y.2.2 = idx := congrArg Prod.snd hye
        have hyx : y = xi := hidn y hy (by rw [hy2, hidx])
        have h1 : (y.1.length, y.2.1) = (K, φ) := congrArg Prod.fst hye
        rw [hyx] at h1
        exact ⟨(congrArg Prod.fst h1).symm, (congrArg Prod.snd h1).symm⟩
      have halign1 : xi.1.length < lg.1.length → xi.2.1 = false := by
        intro hlt
        rcases hmem xi hxi with heq | ⟨hf, _, _⟩
        · rw [heq] at hlt
          exact absurd hlt (lt_irrefl _)
        · exact hf
      have halign2 : xi.1.length = lg.1.length → xi.2.1 = lg.2.1 := by
        intro heq2
        rcases hmem xi hxi with heq | ⟨_, hlt, _⟩
        · rw [heq]
        · rw [heq2] at hlt
          exact absurd hlt (lt_irrefl _)
      have hmain := demux_filter_spec S Q D
        (lg.1.dropLast.map (fun w => multiWordVal S 1 (w, false)) ++
          [multiWordVal S 1 (lg.1.getLast?.getD "", lg.2.1)]) lg.1.length hVlen lg.2.1
        (lengthMapOf g) xi.2.2 xi.1.length xi.2.1 hk_le hkey hother halign1 halign2
      rw [hmain]
      by_cases hk1 : 1 ≤ xi.1.length
      · rw [if_pos hk1]
        have hxine : xi.1 ≠ [] := by
          intro h
          rw [h] at hk1
          exact absurd hk1 (by simp)
        have hinput : (Q.getD xi.2.2 ([], false)).1 = xi.1 := by rw [hQ xi hxi]
        cases hfl : xi.2.1 with
        | true =>
          rw [if_pos rfl, if_pos rfl]
          have hxilg : xi = lg := by
            rcases hmem xi hxi with heq | ⟨hf, _, _⟩
            · exact heq
            · rw [hfl] at hf
              cases hf
          have hlgtrue : lg.2.1 = true := by
            rw [← hxilg]
            exact hfl
          rw [hinput, fuzzy_match_pfx_eq_block S xi.1 D hxine]
          rw [hxilg, hlgtrue]
        | false =>
          rw [if_neg (by simp), if_neg (by simp)]
          rw [hinput, fuzzy_match_getD_eq]
          have hVtake : (lg.1.dropLast.map (fun w => multiWordVal S 1 (w, false)) ++
              [multiWordVal S 1 (lg.1.getLast?.getD "", lg.2.1)]).take xi.1.length =
              xi.1.map (fun w => multiWordVal S 1 (w, false)) := by
            rcases hmem xi hxi with heq | ⟨_, hlt, htake⟩
            · have hlgf : lg.2.1 = false := by
                rw [← heq]
                exact hfl
              rw [heq, ← hVlen, List.take_length, hlgf]
              rw [map_eq_dropLast_append (fun w => multiWordVal S 1 (w, false)) "" lg.1 hlgne]
            · have hk_lt : xi.1.length ≤ lg.1.length - 1 := by omega
              rw [List.take_append_of_le_length (by
                rw [List.length_map, List.length_dropLast]; exact hk_lt)]
              rw [← List.map_take, List.dropLast_eq_take, List.take_take,
                Nat.min_eq_left hk_lt, htake]
          rw [hVtake]
      · rw [if_neg hk1]
        have hxlen : xi.1 = [] := List.length_eq_zero.mp (by omega)
        have hflag : xi.2.1 = false := by
          cases hfl : xi.2.1 with
          | false => rfl
          | true =>
            exfalso
            rcases hmem xi hxi with heq | ⟨hf, _, _⟩
            · exact hlgne (by rw [← heq]; exact hxlen)
            · rw [hf] at hfl
              cases hfl
        rw [hflag, if_neg (by simp), hxlen, fuzzy_match_getD_eq]
        simp [match_combinations]

theorem modifyIdx_length {α : Type} : ∀ (l : List α) (i : Nat) (f : α → α),
    (modifyIdx l i f).length = l.length
  | [], _, _ => rfl
  | _ :: _, 0, _ => rfl
  | a :: as, i + 1, f => by
    rw [modifyIdx, List.length_cons, List.length_cons, modifyIdx_length as i f]

theorem foldl_modify_length {β : Type} :
    ∀ (es : List (Nat × β)) (init : List (List β)),
      (es.foldl (fun res e => modifyIdx res e.1 (fun l => l ++ [e.2])) init).length =
        init.length
  | [], _ => rfl
  | e :: es, init => by
    rw [List.foldl_cons, foldl_modify_length es _, modifyIdx_length]

theorem foldl_modify_getD {β : Type} :
    ∀ (es : List (Nat × β)) (init : List (List β)) (i : Nat), i < init.length →
      (es.foldl (fun res e => modifyIdx res e.1 (fun l => l ++ [e.2])) init).getD i [] =
        init.getD i [] ++ (es.filter (fun e => e.1 == i)).map (fun e => e.2)
  | [], init, i, _ => by simp
  | e :: es, init, i, hi => by
    rw [List.foldl_cons, List.filter_cons]
    by_cases he : e.1 = i
    · rw [foldl_modify_getD es _ i (by rw [modifyIdx_length]; exact hi)]
      rw [he, modifyIdx_getD_eq [] init i _ hi]
      rw [if_pos (by simp [he])]
      rw [List.map_cons, List.append_assoc]
      rfl
    · rw [foldl_modify_getD es _ i (by rw [modifyIdx_length]; exact hi)]
      rw [modifyIdx_getD_ne [] init e.1 i _ (fun h => he h.symm)]
      rw [if_neg (by simp [he])]

theorem optionTraverse_forall2 {α β : Type} {f : α → Option β} {P : α → β → Prop} :
    ∀ {l : List α}, (∀ a ∈ l, ∃ b, f a = some b ∧ P a b) →
      ∃ out, optionTraverse f l = some out ∧ List.Forall₂ P l out
  | [], _ => ⟨[], rfl, List.Forall₂.nil⟩
  | a :: as, h => by
    obtain ⟨b, hb, hPb⟩ := h a (List.mem_cons_self a as)
    obtain ⟨out, hout, hF⟩ := optionTraverse_forall2 (l := as)
      (fun x hx => h x (List.mem_cons_of_mem _ hx))
    rw [optionTraverse, hb, hout]
    exact ⟨b :: out, rfl, List.Forall₂.cons hPb hF⟩

theorem flatMap_no_key (i : Nat) :
    ∀ {groups : List (List IndexedPhrase)} {contribs : List (List (Nat × FuzzyMatchResult))},
      List.Forall₂ (fun g c => ∀ e ∈ c, ∃ x ∈ g, e.1 = x.2.2) groups contribs →
      (∀ x ∈ groups.flatten, x.2.2 ≠ i) →
      contribs.flatMap (fun c => (c.filter (fun e => e.1 == i)).map (fun e => e.2)) = [] := by
  intro groups contribs hF
  induction hF with
  | nil => intro _; rfl
  | @cons g c gs cs hgc hrest ih =>
    intro hno
    rw [List.flatMap_cons]
    have h1 : c.filter (fun e => e.1 == i) = [] := by
      rw [List.filter_eq_nil_iff]
      intro e he hbeq
      obtain ⟨x, hx, hex⟩ := hgc e he
      have hxi : x.2.2 = i := by
        rw [← hex]
        exact eq_of_beq hbeq
      exact hno x (by rw [List.flatten_cons]; exact List.mem_append_left _ hx) hxi
    rw [h1, List.map_nil, List.nil_append]
    exact ih (fun x hx =>
      hno x (by rw [List.flatten_cons]; exact List.mem_append_right _ hx))

theorem flatMap_single_key (i : Nat) (target : List FuzzyMatchResult) :
    ∀ {groups : List (List IndexedPhrase)} {contribs : List (List (Nat × FuzzyMatchResult))},
      List.Forall₂ (fun g c =>
        (∀ e ∈ c, ∃ x ∈ g, e.1 = x.2.2) ∧
        ((∃ x ∈ g, x.2.2 = i) →
          (c.filter (fun e => e.1 == i)).map (fun e => e.2) = target)) groups contribs →
      (groups.flatten.map (fun x => x.2.2)).Nodup →
      (∃ x ∈ groups.flatten, x.2.2 = i) →
      contribs.flatMap (fun c => (c.filter (fun e => e.1 == i)).map (fun e => e.2)) =
        target := by
  intro groups contribs hF
  induction hF with
  | nil =>
    intro _ hex
    obtain ⟨x, hx, _⟩ := hex
    exact absurd hx (List.not_mem_nil x)
  | @cons g c gs cs hgc hrest ih =>
    intro hnd hex
    rw [List.flatten_cons, List.map_append] at hnd
    have hdisj := List.disjoint_of_nodup_append hnd
    rw [List.flatMap_cons]
    rw [List.flatten_cons] at hex
    obtain ⟨x, hx, hxi⟩ := hex
    rw [List.mem_append] at hx
    rcases hx with hxg | hxf
    · rw [hgc.2 ⟨x, hxg, hxi⟩]
      have h2 : cs.flatMap
          (fun c => (c.filter (fun e => e.1 == i)).map (fun e => e.2)) = [] := by
        apply flatMap_no_key i (hrest.imp (fun a b h => h.1))
        intro y hy hyi
        exact hdisj (List.mem_map.mpr ⟨x, hxg, hxi⟩) (List.mem_map.mpr ⟨y, hy, hyi⟩)
      rw [h2, List.append_nil]
    · have h1 : c.filter (fun e => e.1 == i) = [] := by
        rw [List.filter_eq_nil_iff]
        intro e he hbeq
        obtain ⟨y, hy, hey⟩ := hgc.1 e he
        have hyi : y.2.2 = i := by
          rw [← hey]
          exact eq_of_beq hbeq
        exact hdisj (List.mem_map.mpr ⟨y, hy, hyi⟩) (List.mem_map.mpr ⟨x, hxf, hxi⟩)
      rw [h1, List.map_nil, List.nil_append]
      exact ih (List.Nodup.of_append_right hnd) ⟨x, hxf, hxi⟩

/-- C1 (amended): provided every query entry whose `ends_in_prefix` flag is
true has a nonempty phrase, `fuzzy_match_multi` at word distance 1 and phrase
distance 1 succeeds, returns one result list per query, and the `i`-th list
equals `fuzzy_match_prefix` of the `i`-th query when its flag is true and
`fuzzy_match` otherwise — even in the order of results, hence also as
multisets, including when queries repeat or are prefixes of one another. -/
theorem fuzzy_match_multi_eq_singles (S : FuzzyPhraseSet) (Q : List (List String × Bool))
    (hne : ∀ q ∈ Q, q.2 = true → q.1 ≠ []) :
    ∃ out, fuzzy_match_multi S Q 1 1 = some out ∧ out.length = Q.length ∧
      ∀ i, i < Q.length →
        out.getD i [] =
          (if (Q.getD i ([], false)).2 = true
           then fuzzy_match_pfx S (Q.getD i ([], false)).1 1 1
           else (fuzzy_match S (Q.getD i ([], false)).1 1 1).getD []) := by
  by_cases hQE : Q.isEmpty
  · have hQnil : Q = [] := List.isEmpty_iff.mp hQE
    refine ⟨[], ?_, ?_, ?_⟩
    · rw [fuzzy_match_multi, if_pos hQE]
    · rw [hQnil]
      rfl
    · intro i hi
      rw [hQnil] at hi
      exact absurd hi (Nat.not_lt_zero i)
  · have hinv0 : ∀ (k : String × Bool) (v : List QueryWord),
        ([] : List ((String × Bool) × List QueryWord)).lookup k = some v →
        v = multiWordVal S 1 k := by
      intro k v h
      simp [List.lookup] at h
    obtain ⟨m, hm, hinv, _, hpres⟩ := buildAllWords_aux S 1 Q [] hinv0 hne
    have hm' : buildAllWords S 1 Q = some m := hm
    have hperm : (insSort ipLe (Q.enum.map (fun p => (p.2.1, p.2.2, p.1)))).Perm
        (Q.enum.map (fun p => (p.2.1, p.2.2, p.1))) := insSort_perm ipLe _
    have hmapidx : (Q.enum.map (fun p => (p.2.1, p.2.2, p.1))).map (fun x => x.2.2) =
        List.range Q.length := by
      rw [List.map_map]
      rw [show ((fun x : IndexedPhrase => x.2.2) ∘
        (fun p : Nat × (List String × Bool) => (p.2.1, p.2.2, p.1))) = Prod.fst from rfl]
      rw [List.enum_map_fst]
    have hndL : ((insSort ipLe (Q.enum.map (fun p => (p.2.1, p.2.2, p.1)))).map
        (fun x => x.2.2)).Nodup := by
      have hp2 := hperm.map (fun x => x.2.2)
      rw [hmapidx] at hp2
      exact hp2.nodup_iff.mpr (List.nodup_range _)
    have hinj := List.inj_on_of_nodup_map hndL
    have hmemL : ∀ x ∈ insSort ipLe (Q.enum.map (fun p => (p.2.1, p.2.2, p.1))),
        x.2.2 < Q.length ∧ Q.getD x.2.2 ([], false) = (x.1, x.2.1) ∧
          (x.1, x.2.1) ∈ Q := by
      intro x hx
      have hx' : x ∈ Q.enum.map (fun p => (p.2.1, p.2.2, p.1)) := hperm.mem_iff.mp hx
      rw [List.mem_map] at hx'
      obtain ⟨p, hp, hpx⟩ := hx'
      have hpe := List.mem_enum_iff_getElem?.mp hp
      have hlt : p.1 < Q.length := by
        by_contra hge
        rw [List.getElem?_eq_none (Nat.le_of_not_lt hge)] at hpe
        cases hpe
      have hgd : Q.getD p.1 ([], false) = p.2 := by
        rw [List.getD_eq_getElem?_getD, hpe, Option.getD_some]
      rw [← hpx]
      refine ⟨hlt, ?_, ?_⟩
      · show Q.getD p.1 ([], false) = (p.2.1, p.2.2)
        rw [hgd]
      · show (p.2.1, p.2.2) ∈ Q
        exact mem_snd_of_mem_enum hp
    have hall : ∀ g ∈ groupPhrases (insSort ipLe
        (Q.enum.map (fun p => (p.2.1, p.2.2, p.1)))),
        ∃ c, clusterContribs S Q 1 m g = some c ∧
          ((∀ e ∈ c, ∃ x ∈ g, e.1 = x.2.2) ∧
           (∀ xi ∈ g, (c.filter (fun e => e.1 == xi.2.2)).map (fun e => e.2) =
             (if (Q.getD xi.2.2 ([], false)).2 = true
              then fuzzy_match_pfx S (Q.getD xi.2.2 ([], false)).1 1 1
              else (fuzzy_match S (Q.getD xi.2.2 ([], false)).1 1 1).getD []))) := by
      intro g hg
      obtain ⟨hgne, hch⟩ := groupPhrases_props _ g hg
      have hsub : ∀ x ∈ g, x ∈ insSort ipLe
          (Q.enum.map (fun p => (p.2.1, p.2.2, p.1))) := by
        intro x hx
        rw [← groupPhrases_flatten (insSort ipLe
          (Q.enum.map (fun p => (p.2.1, p.2.2, p.1))))]
        exact List.mem_flatten.mpr ⟨g, hg, hx⟩
      have hlg : g.getLast? = some (g.getLast hgne) := List.getLast?_eq_getLast g hgne
      have hlgmem : g.getLast hgne ∈ g := List.getLast_mem hgne
      have hQmem : ((g.getLast hgne).1, (g.getLast hgne).2.1) ∈ Q :=
        (hmemL _ (hsub _ hlgmem)).2.2
      have hQg : ∀ x ∈ g, Q.getD x.2.2 ([], false) = (x.1, x.2.1) :=
        fun x hx => (hmemL x (hsub x hx)).2.1
      obtain ⟨c, hc, hkeys, hfilter⟩ := clusterContribs_spec S Q 1 m hinv g hch
        (g.getLast hgne) hlg hQg (hpres _ hQmem).2 (hpres _ hQmem).1
        (hne _ hQmem)
      refine ⟨c, hc, hkeys, ?_⟩
      intro xi hxig
      have hidn : ∀ x ∈ g, x.2.2 = xi.2.2 → x = xi :=
        fun x hx h => hinj (hsub x hx) (hsub xi hxig) h
      have hfx := hfilter xi hxig hidn
      rw [hQg xi hxig]
      exact hfx
    obtain ⟨contribs, htrav, hF⟩ := optionTraverse_forall2 hall
    have hfin : fuzzy_match_multi S Q 1 1 = some (contribs.flatten.foldl
        (fun res e => modifyIdx res e.1 (fun l => l ++ [e.2]))
        (List.replicate Q.length [])) := by
      simp only [fuzzy_match_multi]
      rw [if_neg hQE, Nat.min_self, hm']
      show (match optionTraverse (clusterContribs S Q 1 m)
          (groupPhrases (insSort ipLe (Q.enum.map (fun p => (p.2.1, p.2.2, p.1))))) with
        | none => none
        | some contribs => some (contribs.flatten.foldl
            (fun res (e : Nat × FuzzyMatchResult) => modifyIdx res e.1 (fun l => l ++ [e.2]))
            (List.replicate Q.length ([] : List FuzzyMatchResult)))) = _
      rw [htrav]
    refine ⟨_, hfin, ?_, ?_⟩
    · rw [foldl_modify_length, List.length_replicate]
    · intro i hi
      rw [foldl_modify_getD _ _ i (by rw [List.length_replicate]; exact hi)]
      have hrep : (List.replicate Q.length ([] : List FuzzyMatchResult)).getD i [] = [] := by
        rw [List.getD_eq_getElem?_getD, List.getElem?_replicate, if_pos hi,
          Option.getD_some]
      rw [hrep, List.nil_append]
      have hiL : ∃ x ∈ insSort ipLe (Q.enum.map (fun p => (p.2.1, p.2.2, p.1))),
          x.2.2 = i := by
        have h1 : i ∈ (insSort ipLe
            (Q.enum.map (fun p => (p.2.1, p.2.2, p.1)))).map (fun x => x.2.2) := by
          apply (hperm.map (fun x => x.2.2)).mem_iff.mpr
          rw [hmapidx]
          exact List.mem_range.mpr hi
        rw [List.mem_map] at h1
        exact h1
      rw [← List.flatMap_id contribs, filter_flatMap, List.map_flatMap]
      apply flatMap_single_key i _
        (hF.imp (fun g c hgc => ⟨hgc.1, ?_⟩))
        (by rw [groupPhrases_flatten]; exact hndL)
        (by rw [groupPhrases_flatten]; exact hiL)
      rintro ⟨x, hx, hxi⟩
      have h2 := hgc.2 x hx
      rw [hxi] at h2
      exact h2

/-- C1, counterexample to the unamended claim: for the query list
`[([], true)]` — one empty phrase flagged as ending in a prefix —
`fuzzy_match_multi` aborts on the `phrase.len() - 1` underflow, while the
corresponding single query `fuzzy_match_prefix []` returns the empty result
set, so the equivalence fails without the nonemptiness proviso. -/
theorem fuzzy_match_multi_ne_singles_on_empty_pfx :
    fuzzy_match_multi sampleSet [([], true)] 1 1 = none ∧
    fuzzy_match_pfx sampleSet [] 1 1 = [] :=
  ⟨rfl, rfl⟩

/-- C1, witness: the amended equivalence instantiated on the sample set with
one full-phrase query and one prefix-flagged query. -/
theorem fuzzy_match_multi_eq_singles_witness :
    ∃ out, fuzzy_match_multi sampleSet [(["1", "2"], false), (["2"], true)] 1 1 =
        some out ∧
      out.length = [(["1", "2"], false), (["2"], true)].length ∧
      ∀ i, i < [(["1", "2"], false), (["2"], true)].length →
        out.getD i [] =
          (if ([(["1", "2"], false), (["2"], true)].getD i ([], false)).2 = true
           then fuzzy_match_pfx sampleSet
             ([(["1", "2"], false), (["2"], true)].getD i ([], false)).1 1 1
           else (fuzzy_match sampleSet
             ([(["1", "2"], false), (["2"], true)].getD i ([], false)).1 1 1).getD []) :=
  fuzzy_match_multi_eq_singles sampleSet [(["1", "2"], false), (["2"], true)]
    (by decide)
